import Mathlib

/-
Verification development for the Flowist streaming text-to-speech pipeline.

Shallow embedding of:
  * the sentence/pause segmentation and event loop of
    `create_meditation_audio_text_stream` (src/app/api/v1/meditation.py),
  * the `ScriptParser` (src/app/audio_service/script_parser.py),
  * the `SessionAudioManager` audio cache (src/app/core/session_audio.py).

Python strings are modelled as `List Char` (a Python `str` is a sequence of
Unicode code points).  Audio byte payloads are `List Nat`.  The MD5 content
fingerprint used for deduplication is modelled by the trimmed sentence text
itself (a stable, collision-free hash).  Wall-clock timestamps are `Int`.
Regular expressions are unfolded into explicit scanning functions that follow
Python `re` semantics (leftmost match, alternatives tried in order, greedy
character classes; greedy classes over a set never backtrack into a successful
continuation because the required continuation character is excluded from the
class in every pattern that appears in this code base).
-/

set_option maxRecDepth 4000

namespace Flowist

/-- Python `str.strip()` on both ends (whitespace for the inputs in scope is
space, tab, CR, LF, which is exactly `Char.isWhitespace`). -/
def pyStrip (s : List Char) : List Char :=
  ((s.dropWhile Char.isWhitespace).reverse.dropWhile Char.isWhitespace).reverse

/-- Numeric value of a digit string, as produced by Python `int` on the digits
captured by `(\d+)`. -/
def digitsToNat (ds : List Char) : Nat :=
  ds.foldl (fun a c => 10 * a + (c.toNat - 48)) 0

/-! ### The inline sentence regex of the streaming pipeline

`create_meditation_audio_text_stream` segments its buffer with
`re.search(r'([^。！？\n]+[。！？]|\[\d+s\])', sentence_buffer)`. -/

/-- The three sentence terminators of the pipeline regex character class
`[。！？]`. -/
def isPipeTerm (c : Char) : Bool :=
  c = '。' || c = '！' || c = '？'

/-- A character admitted by the negated class `[^。！？\n]`. -/
def isContentChar (c : Char) : Bool :=
  !isPipeTerm c && c ≠ '\n'

/-- First alternative `[^。！？\n]+[。！？]` anchored at the head of `s`:
greedily take content characters, then require one terminator.  Returns
`(matched, rest)`. -/
def matchTextAlt (s : List Char) : Option (List Char × List Char) :=
  let run := s.takeWhile isContentChar
  if run.isEmpty then none
  else
    match s.drop run.length with
    | c :: rest => if isPipeTerm c then some (run ++ [c], rest) else none
    | [] => none

/-- Second alternative `\[\d+s\]` (also the whole of `PAUSE_PATTERN =
re.compile(r'\[(\d+)s\]')`) anchored at the head of `s`.  Returns
`(matched, captured digits, rest)`. -/
def matchPauseAlt (s : List Char) : Option (List Char × List Char × List Char) :=
  match s with
  | '[' :: t =>
    let ds := t.takeWhile Char.isDigit
    if ds.isEmpty then none
    else
      match t.drop ds.length with
      | 's' :: ']' :: r => some ('[' :: (ds ++ ['s', ']']), ds, r)
      | _ => none
  | _ => none

/-- `re.search` for the pipeline alternation: scan left to right, at each
position try the text alternative first, then the pause alternative.  Returns
`(matched, rest after the match)`; the text before the match is discarded by
the caller (`sentence_buffer[match.end():]`). -/
def findMatch : List Char → Option (List Char × List Char)
  | [] => none
  | c :: t =>
    match matchTextAlt (c :: t) with
    | some (m, r) => some (m, r)
    | none =>
      match matchPauseAlt (c :: t) with
      | some (m, _, r) => some (m, r)
      | none => findMatch t

/-- `PAUSE_PATTERN.search`: leftmost occurrence of `\[(\d+)s\]`.  Returns
`(text before the match, captured digits, text after the match)`. -/
def pauseSearch : List Char → Option (List Char × List Char × List Char)
  | [] => none
  | c :: t =>
    match matchPauseAlt (c :: t) with
    | some (_, ds, r) => some ([], ds, r)
    | none =>
      match pauseSearch t with
      | some (b, ds, r) => some (c :: b, ds, r)
      | none => none

/-! ### Voice synthesis attempts and the tenacity retry loop -/

/-- Observable behaviour of one call to
`audio_service.generate_audio_from_text(sentence)`: the `chunk.data` payloads
it yields, and whether it raises after yielding them. -/
structure AttemptOutcome where
  chunks : List (List Nat)
  raises : Bool
  deriving DecidableEq, Repr, Inhabited

/-- Bytes accumulated by
`async for audio_chunk in ...: if audio_chunk.data: audio_data += audio_chunk.data`
(empty chunks are skipped, which does not change the concatenation). -/
def attemptData (a : AttemptOutcome) : List Nat :=
  (a.chunks.filter (fun c => c ≠ [])).flatten

/-- Result of one `with attempt:` body.  The buffer is reset (`audio_data = b""`)
at the start, so only this attempt's bytes can appear.  A raised exception is a
failure, and empty accumulated data raises
`Exception("Empty audio data from TTS provider")`, which is also a failure. -/
def attemptResult (a : AttemptOutcome) : Option (List Nat) :=
  if a.raises then none
  else if attemptData a = [] then none
  else some (attemptData a)

/-- An attempt counts as failed exactly when it raises or yields no bytes. -/
def attemptFails (a : AttemptOutcome) : Prop :=
  a.raises = true ∨ attemptData a = []

/-- `AsyncRetrying(stop=stop_after_attempt(5), ...)`: up to five attempts,
first success wins, exhaustion reraises (modelled as `none`). -/
def retryLoop (att : Nat → AttemptOutcome) : Nat → Nat → Option (List Nat)
  | 0, _ => none
  | Nat.succ k, i =>
    match attemptResult (att i) with
    | some b => some b
    | none => retryLoop att k (i + 1)

/-- The full retry loop around synthesis of one sentence. -/
def runRetry (att : Nat → AttemptOutcome) : Option (List Nat) :=
  retryLoop att 5 0

/-! ### Stream events and pipeline state -/

/-- The SSE wire events of `create_meditation_audio_text_stream`.  The
`audio_ref` duration (mutagen decode with a bitrate fallback) is a float
derived from the bytes and is not modelled; no claim depends on it. -/
inductive StreamEvent where
  | sessionStart (sid : List Char)
  | text (seq : Nat) (content : List Char)
  | pause (seq : Nat) (duration : Nat)
  | audioRef (seq : Nat) (url : List Char) (content : List Char)
  | done (seq : Nat)
  | error (msg : List Char)
  deriving DecidableEq, Repr

/-- One observable step of the generator: either an SSE `yield` or a call to
`audio_manager.store_chunk`. -/
inductive Action where
  | emit (e : StreamEvent)
  | storeChunk (sid : List Char) (seq : Nat) (bytes : List Nat)
  deriving DecidableEq, Repr

/-- The audio retrieval URL built for an `audio_ref` event. -/
def refUrl (sid : List Char) (seq : Nat) : List Char :=
  "/api/v1/meditation/audio/".data ++ sid ++ "/".data ++ (toString seq).data

/-- Mutable state of one stream: `sentence_buffer`, `processed_hashes` (kept in
insertion order; membership is what the Python set provides), `sentence_count`,
and the actions performed so far. -/
structure PipeState where
  buffer : List Char
  hashes : List (List Char)
  count : Nat
  actions : List Action
  deriving DecidableEq, Repr

def initState : PipeState :=
  { buffer := [], hashes := [], count := 0, actions := [] }

/-- A synthesis oracle: for each sentence text and attempt index, the outcome
of the corresponding `generate_audio_from_text` call. -/
def Oracle : Type := List Char → Nat → AttemptOutcome

/-- Actions taken for a matched sentence of marker shape (`[` … `]`): a pause
event when the sentence contains `\[(\d+)s\]`, nothing otherwise; `continue`
skips synthesis either way. -/
def pauseActions (n : Nat) (r : Option (List Char × List Char × List Char)) :
    List Action :=
  match r with
  | some (_, ds, _) => [Action.emit (StreamEvent.pause n (digitsToNat ds))]
  | none => []

/-- Actions taken after the retry loop for an ordinary sentence: on success
with non-empty bytes, store the chunk and emit its `audio_ref`; on a reraised
exhaustion (`none`) the error is logged and nothing is emitted. -/
def synthActions (sid : List Char) (n : Nat) (sentence : List Char)
    (r : Option (List Nat)) : List Action :=
  match r with
  | some bytes =>
    if bytes ≠ [] then
      [Action.storeChunk sid n bytes,
       Action.emit (StreamEvent.audioRef n (refUrl sid n) sentence)]
    else []
  | none => []

/-- The inner `while True:` loop of the pipeline, processing every complete
match currently in the buffer.  `fuel` bounds the number of iterations; each
iteration consumes at least one buffer character, so `buffer.length + 1` is
always sufficient. -/
def processBufferFuel (o : Oracle) (sid : List Char) :
    Nat → PipeState → PipeState
  | 0, st => st
  | Nat.succ fuel, st =>
    match findMatch st.buffer with
    | none => st
    | some (m, rest) =>
      let sentence := pyStrip m
      if sentence = [] then
        processBufferFuel o sid fuel { st with buffer := rest }
      else if sentence ∈ st.hashes then
        processBufferFuel o sid fuel { st with buffer := rest }
      else
        let n := st.count + 1
        let extra : List Action :=
          if sentence.head? = some '[' ∧ sentence.getLast? = some ']' then
            pauseActions n (pauseSearch sentence)
          else
            synthActions sid n sentence (runRetry (o sentence))
        processBufferFuel o sid fuel
          { buffer := rest, hashes := st.hashes ++ [sentence], count := n,
            actions := st.actions ++ Action.emit (StreamEvent.text n sentence) :: extra }

/-- Receive one chunk from the generation stream
(`sentence_buffer += text_chunk`) and drain all complete matches. -/
def feedChunk (o : Oracle) (sid : List Char) (st : PipeState) (c : List Char) :
    PipeState :=
  let st1 : PipeState := { st with buffer := st.buffer ++ c }
  processBufferFuel o sid (st1.buffer.length + 1) st1

/-- The main `async for text_chunk in ...` loop. -/
def runChunks (o : Oracle) (sid : List Char) (cs : List (List Char)) : PipeState :=
  cs.foldl (feedChunk o sid) initState

/-- End of generation source: flush a non-blank buffer remainder as one final
text event (no dedup check, no synthesis), then emit `done` with the next
sequence number. -/
def runPipeline (o : Oracle) (sid : List Char) (cs : List (List Char)) :
    List Action :=
  let st := runChunks o sid cs
  let r := pyStrip st.buffer
  let st2 : PipeState :=
    if r ≠ [] then
      { st with count := st.count + 1
                actions := st.actions ++ [Action.emit (StreamEvent.text (st.count + 1) r)] }
    else st
  Action.emit (StreamEvent.sessionStart sid) ::
    st2.actions ++ [Action.emit (StreamEvent.done (st2.count + 1))]

/-- The SSE events among the actions (the wire-visible part). -/
def emittedEvents (as : List Action) : List StreamEvent :=
  as.filterMap (fun a =>
    match a with
    | Action.emit e => some e
    | Action.storeChunk _ _ _ => none)

/-! ### Observations on the action trace -/

/-- Contents of all `text` events among the actions. -/
def textContents (as : List Action) : List (List Char) :=
  as.filterMap (fun a =>
    match a with
    | Action.emit (StreamEvent.text _ c) => some c
    | _ => none)

/-- Contents of all `audio_ref` events among the actions. -/
def audioTexts (as : List Action) : List (List Char) :=
  as.filterMap (fun a =>
    match a with
    | Action.emit (StreamEvent.audioRef _ _ c) => some c
    | _ => none)

/-- Contents of all `text` events in a wire event list. -/
def eventTexts (evs : List StreamEvent) : List (List Char) :=
  evs.filterMap (fun e =>
    match e with
    | StreamEvent.text _ c => some c
    | _ => none)

/-- Contents of all `audio_ref` events in a wire event list. -/
def eventAudioTexts (evs : List StreamEvent) : List (List Char) :=
  evs.filterMap (fun e =>
    match e with
    | StreamEvent.audioRef _ _ c => some c
    | _ => none)

/-- The sequence number carried by a `text`, `pause` or `audio_ref` event. -/
def eventSeq? : StreamEvent → Option Nat
  | StreamEvent.text n _ => some n
  | StreamEvent.pause n _ => some n
  | StreamEvent.audioRef n _ _ => some n
  | _ => none

/-- The largest sequence number assigned to a `text`/`pause`/`audio_ref`
event (`0` when there is none). -/
def lastSeq (evs : List StreamEvent) : Nat :=
  (evs.filterMap eventSeq?).foldr max 0

/-- Actions that do not depend on synthesis results: everything except cache
stores and `audio_ref` events. -/
def isCore (a : Action) : Bool :=
  match a with
  | Action.storeChunk _ _ _ => false
  | Action.emit (StreamEvent.audioRef _ _ _) => false
  | _ => true

def coreActions (as : List Action) : List Action :=
  as.filter isCore

/-- The wire event list of one full stream. -/
def runPipelineEvents (o : Oracle) (sid : List Char) (cs : List (List Char)) :
    List StreamEvent :=
  emittedEvents (runPipeline o sid cs)

/-- A synthesis oracle whose every attempt immediately succeeds with one
non-empty chunk. -/
def alwaysOk : Oracle := fun _ _ => { chunks := [[42]], raises := false }

/-- A synthesis oracle whose every attempt raises. -/
def alwaysFail : Oracle := fun _ _ => { chunks := [], raises := true }

/-- An oracle that raises on the first three attempts for every sentence and
succeeds from the fourth attempt on with the given chunk list. -/
def failThrice (cs : List (List Nat)) : Oracle := fun _ k =>
  if k < 3 then { chunks := [], raises := true } else { chunks := cs, raises := false }

/-! ### ScriptParser (src/app/audio_service/script_parser.py) -/

namespace ScriptParser

/-- `SegmentType`. -/
inductive SegKind where
  | text
  | pause
  deriving DecidableEq, Repr

/-- `ScriptSegment`: `type`, `content` (text only), `duration` (pauses only;
the Python field is a float fed from `int(...)`, modelled as `Int`). -/
structure ScriptSegment where
  kind : SegKind
  content : List Char := []
  duration : Int := 0
  deriving DecidableEq, Repr

/-- The character class of `SENTENCE_ENDINGS = re.compile(r'([。！？.!?\n]+)')`. -/
def isSentenceEnding (c : Char) : Bool :=
  c = '。' || c = '！' || c = '？' || c = '.' || c = '!' || c = '?' || c = '\n'

/-- `re.split(SENTENCE_ENDINGS, s)`: alternating non-ending parts and maximal
runs of ending characters, keeping the captured runs.  `fuel` bounds the
recursion; every step consumes the nonempty run, so `s.length + 1` suffices. -/
def splitEndingsFuel : Nat → List Char → List (List Char)
  | 0, s => [s]
  | Nat.succ fuel, s =>
    match s.dropWhile (fun c => !isSentenceEnding c) with
    | [] => [s.takeWhile (fun c => !isSentenceEnding c)]
    | r =>
      s.takeWhile (fun c => !isSentenceEnding c) ::
        r.takeWhile isSentenceEnding ::
        splitEndingsFuel fuel (r.dropWhile isSentenceEnding)

def splitEndings (s : List Char) : List (List Char) :=
  splitEndingsFuel (s.length + 1) s

/-- `SENTENCE_ENDINGS.match(part)` succeeds exactly when `part` starts with an
ending character. -/
def startsWithEnding (part : List Char) : Bool :=
  match part with
  | [] => false
  | c :: _ => isSentenceEnding c

/-- The accumulator loop of `_split_sentences`: punctuation parts are appended
to `current` and flush it (stripped, if non-blank); other parts are assigned to
`current`; a non-blank trailing `current` is flushed at the end. -/
def sentencesLoop : List (List Char) → List Char → List (List Char)
  | [], current => if pyStrip current ≠ [] then [pyStrip current] else []
  | p :: ps, current =>
    if startsWithEnding p then
      let cur := current ++ p
      (if pyStrip cur ≠ [] then [pyStrip cur] else []) ++ sentencesLoop ps []
    else
      sentencesLoop ps p

/-- `ScriptParser._split_sentences`. -/
def split_sentences (text : List Char) : List (List Char) :=
  sentencesLoop (splitEndings text) []

/-- `ScriptParser._merge_and_clean`: drop blank text segments and pause
segments with non-positive duration. -/
def merge_and_clean (segs : List ScriptSegment) : List ScriptSegment :=
  segs.filter (fun s =>
    !(s.kind == SegKind.text && (pyStrip s.content).isEmpty) &&
    !(s.kind == SegKind.pause && decide (s.duration ≤ 0)))

/-- `PAUSE_PATTERN.split(script)`: alternating text parts and captured digit
groups. -/
def pauseSplitFuel : Nat → List Char → List (List Char)
  | 0, s => [s]
  | Nat.succ fuel, s =>
    match pauseSearch s with
    | some (b, ds, a) => b :: ds :: pauseSplitFuel fuel a
    | none => [s]

def pauseSplit (s : List Char) : List (List Char) :=
  pauseSplitFuel (s.length + 1) s

/-- Python `int(str)`: optional surrounding whitespace, optional sign, at
least one digit (underscore separators never occur in the strings in scope). -/
def parseIntPy (s : List Char) : Option Int :=
  let t := pyStrip s
  match t with
  | '-' :: ds =>
    if ds ≠ [] ∧ ds.all Char.isDigit then some (-(digitsToNat ds : Int)) else none
  | '+' :: ds =>
    if ds ≠ [] ∧ ds.all Char.isDigit then some ((digitsToNat ds : Int)) else none
  | ds =>
    if ds ≠ [] ∧ ds.all Char.isDigit then some ((digitsToNat ds : Int)) else none

/-- `PAUSE_PATTERN.match(f"[\x7bpart\x7ds]") is None`. -/
def isNotPauseLike (part : List Char) : Bool :=
  (matchPauseAlt ('[' :: (part ++ ['s', ']']))).isNone

/-- The index loop of `ScriptParser.parse`.  The guard on the text branch is
`(i > 0 and parts[i-1] == '') or (i > 0 and PAUSE_PATTERN.match(f"[\x7bpart\x7ds]") is None)`;
a successful `int(parts[i+1])` appends a pause segment and advances by two,
otherwise the index advances by one.  `fuel` bounds the iterations;
`parts.length + 1` suffices since the index strictly increases. -/
def parseLoopFuel (parts : List (List Char)) : Nat → Nat → List ScriptSegment
  | 0, _ => []
  | Nat.succ fuel, i =>
    match parts.get? i with
    | none => []
    | some part =>
      let textSegs : List ScriptSegment :=
        if (decide (0 < i) && (parts.getD (i - 1) []).isEmpty) ||
           (decide (0 < i) && isNotPauseLike part) then
          if pyStrip part ≠ [] then
            (split_sentences part).filterMap (fun s =>
              if pyStrip s ≠ [] then some { kind := SegKind.text, content := pyStrip s }
              else none)
          else []
        else []
      match (parts.get? (i + 1)).bind parseIntPy with
      | some d =>
        textSegs ++ ({ kind := SegKind.pause, duration := d } : ScriptSegment) ::
          parseLoopFuel parts fuel (i + 2)
      | none => textSegs ++ parseLoopFuel parts fuel (i + 1)

/-- `ScriptParser.parse`. -/
def parse (script : List Char) : List ScriptSegment :=
  merge_and_clean (parseLoopFuel (pauseSplit script) ((pauseSplit script).length + 1) 0)

/-- A character that is not a sentence ending, not whitespace, and not the
opening bracket of a pause directive — ordinary sentence material for which
streaming segmentation is exact.  Used to state the round-trip property. -/
def plainChar (c : Char) : Prop :=
  isSentenceEnding c = false ∧ c.isWhitespace = false ∧ c ≠ '['

instance (c : Char) : Decidable (plainChar c) := by
  unfold plainChar
  infer_instance

/-- Longest suffix of `s` with no sentence-ending character; everything before
it is `full_text[:last_sentence_end]`, the end of the last
`SENTENCE_ENDINGS.finditer` match. -/
def trailingNoEnding (s : List Char) : List Char :=
  (s.reverse.takeWhile (fun c => !isSentenceEnding c)).reverse

/-- `ScriptParser.parse_streaming(text_chunk, buffer)`: first a pause-marker
search on the whole accumulated text, otherwise split everything up to the
last sentence ending, otherwise keep buffering. -/
def parse_streaming (text_chunk buffer : List Char) :
    List ScriptSegment × List Char :=
  let full := buffer ++ text_chunk
  match pauseSearch full with
  | some (before, ds, after) =>
    ((if pyStrip before ≠ [] then
        [({ kind := SegKind.text, content := pyStrip before } : ScriptSegment)]
      else []) ++
      [({ kind := SegKind.pause, duration := (digitsToNat ds : Int) } : ScriptSegment)],
     after)
  | none =>
    let remaining := trailingNoEnding full
    let complete := full.take (full.length - remaining.length)
    if complete ≠ [] then
      ((split_sentences complete).filterMap (fun s =>
          if pyStrip s ≠ [] then some { kind := SegKind.text, content := pyStrip s }
          else none),
       remaining)
    else ([], full)

end ScriptParser

/-! ### SessionAudioManager (src/app/core/session_audio.py) -/

namespace SessionAudio

/-- The in-memory cache `\x7bsession_id: \x7bseq_id: (audio_bytes, timestamp)\x7d\x7d`
with `_last_cleanup`.  Python dicts preserve insertion order, so both levels
are modelled as insertion-ordered association lists; updating an existing key
keeps its position. -/
structure SessionAudioManager where
  cache : List (List Char × List (Nat × (List Nat × Int)))
  lastCleanup : Int
  deriving DecidableEq, Repr

def lookupSession (m : SessionAudioManager) (sid : List Char) :
    Option (List (Nat × (List Nat × Int))) :=
  (m.cache.find? (fun p => p.1 == sid)).map Prod.snd

/-- Insert-or-overwrite into the per-session dict. -/
def insertInner (inner : List (Nat × (List Nat × Int))) (seq : Nat)
    (v : List Nat × Int) : List (Nat × (List Nat × Int)) :=
  if inner.any (fun e => e.1 == seq) then
    inner.map (fun e => if e.1 == seq then (seq, v) else e)
  else inner ++ [(seq, v)]

/-- `cleanup(max_age_seconds)`: drop every session whose dict is empty or whose
first-inserted chunk is older than `maxAge`, then record the sweep time. -/
def cleanup (m : SessionAudioManager) (maxAge : Int) (now : Int) :
    SessionAudioManager :=
  { cache := m.cache.filter (fun p =>
      match p.2 with
      | [] => false
      | e :: _ => !(decide (now - e.2.2 > maxAge)))
    lastCleanup := now }

/-- The cache mutation of `store_chunk` before the periodic-cleanup check. -/
def storeRaw (m : SessionAudioManager) (sid : List Char) (seq : Nat)
    (data : List Nat) (now : Int) : SessionAudioManager :=
  let cache1 :=
    if m.cache.any (fun p => p.1 == sid) then m.cache else m.cache ++ [(sid, [])]
  { m with cache := cache1.map (fun p =>
      if p.1 == sid then (p.1, insertInner p.2 seq (data, now)) else p) }

/-- `store_chunk`, including the opportunistic hourly cleanup (`cleanup()` uses
its default `max_age_seconds = 3600`).  The two `time.time()` calls inside one
store are modelled as a single instant `now`. -/
def store_chunk (m : SessionAudioManager) (sid : List Char) (seq : Nat)
    (data : List Nat) (now : Int) : SessionAudioManager :=
  let m1 := storeRaw m sid seq data now
  if now - m.lastCleanup > 3600 then cleanup m1 3600 now else m1

/-- `get_chunk`: a total lookup returning `none` for unknown keys. -/
def get_chunk (m : SessionAudioManager) (sid : List Char) (seq : Nat) :
    Option (List Nat) :=
  match lookupSession m sid with
  | some inner => (inner.find? (fun e => e.1 == seq)).map (fun e => e.2.1)
  | none => none

/-- Every timestamp stored anywhere in the cache. -/
def allTimestamps (m : SessionAudioManager) : List Int :=
  (m.cache.map (fun p => p.2.map (fun e => e.2.2))).flatten

end SessionAudio

/-! ### Helper lemmas about traces -/

theorem mem_emittedEvents {e : StreamEvent} {as : List Action} :
    e ∈ emittedEvents as ↔ Action.emit e ∈ as := by
  simp only [emittedEvents, List.mem_filterMap]
  constructor
  · rintro ⟨a, ha, hfa⟩
    cases a with
    | emit e2 => simp at hfa; subst hfa; exact ha
    | storeChunk _ _ _ => simp at hfa
  · intro h
    exact ⟨Action.emit e, h, rfl⟩

theorem emittedEvents_append (as bs : List Action) :
    emittedEvents (as ++ bs) = emittedEvents as ++ emittedEvents bs := by
  simp [emittedEvents]

theorem textContents_append (as bs : List Action) :
    textContents (as ++ bs) = textContents as ++ textContents bs := by
  simp [textContents]

theorem audioTexts_append (as bs : List Action) :
    audioTexts (as ++ bs) = audioTexts as ++ audioTexts bs := by
  simp [audioTexts]

theorem coreActions_append (as bs : List Action) :
    coreActions (as ++ bs) = coreActions as ++ coreActions bs := by
  simp [coreActions]

theorem mem_textContents {c : List Char} {as : List Action} :
    c ∈ textContents as ↔ ∃ n, Action.emit (StreamEvent.text n c) ∈ as := by
  simp only [textContents, List.mem_filterMap]
  constructor
  · rintro ⟨a, ha, hfa⟩
    cases a with
    | emit e2 =>
      cases e2 with
      | text n c2 =>
        simp only [Option.some.injEq] at hfa
        exact ⟨n, hfa ▸ ha⟩
      | sessionStart _ => simp at hfa
      | pause _ _ => simp at hfa
      | audioRef _ _ _ => simp at hfa
      | done _ => simp at hfa
      | error _ => simp at hfa
    | storeChunk _ _ _ => simp at hfa
  · rintro ⟨n, h⟩
    exact ⟨Action.emit (StreamEvent.text n c), h, rfl⟩

theorem mem_audioTexts {c : List Char} {as : List Action} :
    c ∈ audioTexts as ↔ ∃ n u, Action.emit (StreamEvent.audioRef n u c) ∈ as := by
  simp only [audioTexts, List.mem_filterMap]
  constructor
  · rintro ⟨a, ha, hfa⟩
    cases a with
    | emit e2 =>
      cases e2 with
      | audioRef n u c2 =>
        simp only [Option.some.injEq] at hfa
        exact ⟨n, u, hfa ▸ ha⟩
      | sessionStart _ => simp at hfa
      | pause _ _ => simp at hfa
      | text _ _ => simp at hfa
      | done _ => simp at hfa
      | error _ => simp at hfa
    | storeChunk _ _ _ => simp at hfa
  · rintro ⟨n, u, h⟩
    exact ⟨Action.emit (StreamEvent.audioRef n u c), h, rfl⟩

/-! ### The loop invariant of the sentence pipeline -/

/-- Invariant of the in-loop pipeline state: the processed fingerprints are
pairwise distinct and the actions performed so far are exactly described by
them — `text` events enumerate the fingerprint list with 1-based sequence
numbers, `audio_ref` events are a subset of them arising only from successful
synthesis, and no terminal events have been produced yet. -/
structure LoopInv (o : Oracle) (st : PipeState) : Prop where
  count_eq : st.count = st.hashes.length
  hashes_nodup : st.hashes.Nodup
  texts_eq : textContents st.actions = st.hashes
  text_iff : ∀ n c, Action.emit (StreamEvent.text n c) ∈ st.actions ↔
      ∃ i, st.hashes.get? i = some c ∧ n = i + 1
  audio_sub : ∀ c ∈ audioTexts st.actions, c ∈ st.hashes
  audio_nodup : (audioTexts st.actions).Nodup
  pause_seq : ∀ n d, Action.emit (StreamEvent.pause n d) ∈ st.actions →
      1 ≤ n ∧ n ≤ st.count
  audio_seq : ∀ n u c, Action.emit (StreamEvent.audioRef n u c) ∈ st.actions →
      1 ≤ n ∧ n ≤ st.count
  audio_text : ∀ n u c, Action.emit (StreamEvent.audioRef n u c) ∈ st.actions →
      Action.emit (StreamEvent.text n c) ∈ st.actions
  audio_retry : ∀ n u c, Action.emit (StreamEvent.audioRef n u c) ∈ st.actions →
      ∃ b, runRetry (o c) = some b
  no_other : ∀ e, Action.emit e ∈ st.actions →
      (∃ n c, e = StreamEvent.text n c) ∨ (∃ n d, e = StreamEvent.pause n d) ∨
      (∃ n u c, e = StreamEvent.audioRef n u c)

theorem loopInv_init (o : Oracle) : LoopInv o initState := by
  constructor <;> simp [initState, textContents, audioTexts]

/-- The invariant does not depend on the buffer. -/
theorem loopInv_setBuffer {o : Oracle} {st : PipeState} (b : List Char)
    (h : LoopInv o st) : LoopInv o { st with buffer := b } :=
  LoopInv.mk h.count_eq h.hashes_nodup h.texts_eq h.text_iff h.audio_sub
    h.audio_nodup h.pause_seq h.audio_seq h.audio_text h.audio_retry h.no_other

/-- Processing one fresh sentence preserves the invariant: the state gains the
fingerprint, the sequence number and a `text` event, plus either nothing, one
`pause` event, or one cache store with its `audio_ref` event backed by a
successful retry. -/
theorem loopInv_step {o : Oracle} {st : PipeState} (s rest : List Char)
    (extra : List Action) (hfresh : s ∉ st.hashes)
    (hextra : extra = [] ∨
      (∃ d, extra = [Action.emit (StreamEvent.pause (st.count + 1) d)]) ∨
      (∃ u b, runRetry (o s) = some b ∧
        extra = [Action.storeChunk u (st.count + 1) b,
                 Action.emit (StreamEvent.audioRef (st.count + 1)
                   (refUrl u (st.count + 1)) s)]))
    (h : LoopInv o st) :
    LoopInv o
      { buffer := rest, hashes := st.hashes ++ [s], count := st.count + 1,
        actions := st.actions ++
          Action.emit (StreamEvent.text (st.count + 1) s) :: extra } := by
  have hses : ∀ e, Action.emit e ∈ extra →
      (∃ d, e = StreamEvent.pause (st.count + 1) d) ∨
      (∃ u, e = StreamEvent.audioRef (st.count + 1) (refUrl u (st.count + 1)) s) := by
    intro e he
    rcases hextra with rfl | ⟨d, rfl⟩ | ⟨u, b, hb, rfl⟩
    · simp at he
    · left
      refine ⟨d, ?_⟩
      have := List.mem_singleton.mp he
      exact Action.emit.inj this
    · right
      refine ⟨u, ?_⟩
      rcases List.mem_cons.mp he with h1 | h1
      · exact absurd h1 (by simp)
      · exact Action.emit.inj (List.mem_singleton.mp h1)
  have htextextra : textContents (Action.emit (StreamEvent.text (st.count + 1) s) :: extra)
      = [s] := by
    rcases hextra with rfl | ⟨d, rfl⟩ | ⟨u, b, _, rfl⟩ <;> simp [textContents]
  have haudioextra : audioTexts (Action.emit (StreamEvent.text (st.count + 1) s) :: extra)
      = audioTexts extra := by
    simp [audioTexts]
  constructor
  case count_eq => simp [h.count_eq]
  case hashes_nodup =>
    simp only [List.nodup_append, List.nodup_cons, List.nodup_nil]
    exact ⟨h.hashes_nodup, by simp, by simpa using hfresh⟩
  case texts_eq =>
    show textContents (st.actions ++ _) = _
    rw [textContents_append, htextextra, h.texts_eq]
  case text_iff =>
    intro n c
    show _ ∈ st.actions ++ _ ↔ ∃ i, (st.hashes ++ [s]).get? i = some c ∧ n = i + 1
    constructor
    · intro hmem
      rcases List.mem_append.mp hmem with hold | hnew
      · obtain ⟨i, hi, rfl⟩ := (h.text_iff n c).mp hold
        have hilt : i < st.hashes.length := (List.get?_eq_some.mp hi).1
        exact ⟨i, by rw [List.get?_append hilt]; exact hi, rfl⟩
      · rcases List.mem_cons.mp hnew with heq | hex
        · obtain ⟨hn, hc⟩ := StreamEvent.text.inj (Action.emit.inj heq)
          refine ⟨st.hashes.length, ?_, by rw [hn, h.count_eq]⟩
          rw [hc]
          exact List.get?_concat_length st.hashes s
        · rcases hses _ hex with ⟨d, hd⟩ | ⟨u, hu⟩
          · exact absurd hd (by simp)
          · exact absurd hu (by simp)
    · rintro ⟨i, hi, rfl⟩
      by_cases hilt : i < st.hashes.length
      · rw [List.get?_append hilt] at hi
        exact List.mem_append.mpr (Or.inl ((h.text_iff _ c).mpr ⟨i, hi, rfl⟩))
      · have hlen : i < st.hashes.length + 1 := by
          have := (List.get?_eq_some.mp hi).1
          simpa using this
        have hieq : i = st.hashes.length := by omega
        subst hieq
        have hcs : c = s := by
          have hcat := List.get?_concat_length st.hashes s
          rw [hcat] at hi
          exact (Option.some.inj hi).symm
        subst hcs
        rw [h.count_eq]
        exact List.mem_append.mpr (Or.inr (List.mem_cons_self _ _))
  case audio_sub =>
    intro c hc
    have hc2 : c ∈ audioTexts (st.actions ++
        Action.emit (StreamEvent.text (st.count + 1) s) :: extra) := hc
    rw [audioTexts_append, haudioextra] at hc2
    show c ∈ st.hashes ++ [s]
    rcases List.mem_append.mp hc2 with hold | hnew
    · exact List.mem_append.mpr (Or.inl (h.audio_sub c hold))
    · rcases mem_audioTexts.mp hnew with ⟨n, u, hmem⟩
      rcases hses _ hmem with ⟨d, hd⟩ | ⟨u2, hu⟩
      · exact absurd hd (by simp)
      · obtain ⟨_, _, hcs⟩ := StreamEvent.audioRef.inj hu
        rw [hcs]
        simp
  case audio_nodup =>
    show (audioTexts (st.actions ++ _)).Nodup
    rw [audioTexts_append, haudioextra]
    have hex : audioTexts extra = [] ∨ audioTexts extra = [s] := by
      rcases hextra with rfl | ⟨d, rfl⟩ | ⟨u, b, _, rfl⟩ <;> simp [audioTexts]
    rcases hex with hx | hx <;> rw [hx]
    · simpa using h.audio_nodup
    · rw [List.nodup_append]
      refine ⟨h.audio_nodup, List.nodup_singleton s, ?_⟩
      intro c hc
      simp only [List.mem_singleton]
      intro hcs
      subst hcs
      exact hfresh (h.audio_sub c hc)
  case pause_seq =>
    intro n d hmem
    show 1 ≤ n ∧ n ≤ st.count + 1
    rcases List.mem_append.mp hmem with hold | hnew
    · have := h.pause_seq n d hold
      omega
    · rcases List.mem_cons.mp hnew with heq | hex
      · exact absurd heq (by simp)
      · rcases hses _ hex with ⟨d2, hd⟩ | ⟨u, hu⟩
        · obtain ⟨hn, _⟩ := StreamEvent.pause.inj hd
          omega
        · exact absurd hu (by simp)
  case audio_seq =>
    intro n u c hmem
    show 1 ≤ n ∧ n ≤ st.count + 1
    rcases List.mem_append.mp hmem with hold | hnew
    · have := h.audio_seq n u c hold
      omega
    · rcases List.mem_cons.mp hnew with heq | hex
      · exact absurd heq (by simp)
      · rcases hses _ hex with ⟨d2, hd⟩ | ⟨u2, hu⟩
        · exact absurd hd (by simp)
        · obtain ⟨hn, _, _⟩ := StreamEvent.audioRef.inj hu
          omega
  case audio_text =>
    intro n u c hmem
    rcases List.mem_append.mp hmem with hold | hnew
    · exact List.mem_append.mpr (Or.inl (h.audio_text n u c hold))
    · rcases List.mem_cons.mp hnew with heq | hex
      · exact absurd heq (by simp)
      · rcases hses _ hex with ⟨d2, hd⟩ | ⟨u2, hu⟩
        · exact absurd hd (by simp)
        · obtain ⟨hn, _, hcs⟩ := StreamEvent.audioRef.inj hu
          subst hn; subst hcs
          exact List.mem_append.mpr (Or.inr (List.mem_cons_self _ _))
  case audio_retry =>
    intro n u c hmem
    rcases List.mem_append.mp hmem with hold | hnew
    · exact h.audio_retry n u c hold
    · rcases List.mem_cons.mp hnew with heq | hex
      · exact absurd heq (by simp)
      · rcases hses _ hex with ⟨d2, hd⟩ | ⟨u2, hu⟩
        · exact absurd hd (by simp)
        · obtain ⟨_, _, hcs⟩ := StreamEvent.audioRef.inj hu
          subst hcs
          rcases hextra with rfl | ⟨d, hx⟩ | ⟨u3, b, hb, hx⟩
          · simp at hex
          · rw [hx] at hex
            exact absurd (Action.emit.inj (List.mem_singleton.mp hex)) (by simp)
          · exact ⟨b, hb⟩
  case no_other =>
    intro e hmem
    rcases List.mem_append.mp hmem with hold | hnew
    · exact h.no_other e hold
    · rcases List.mem_cons.mp hnew with heq | hex
      · left
        exact ⟨st.count + 1, s, Action.emit.inj heq⟩
      · rcases hses _ hex with ⟨d, hd⟩ | ⟨u, hu⟩
        · right; left; exact ⟨st.count + 1, d, hd⟩
        · right; right; exact ⟨st.count + 1, refUrl u (st.count + 1), s, hu⟩

/-- The loop invariant is preserved by any number of loop iterations. -/
theorem processBufferFuel_inv (o : Oracle) (sid : List Char) :
    ∀ (fuel : Nat) (st : PipeState), LoopInv o st →
      LoopInv o (processBufferFuel o sid fuel st) := by
  intro fuel
  induction fuel with
  | zero => exact fun st h => h
  | succ fuel ih =>
    intro st h
    rcases hfm : findMatch st.buffer with _ | ⟨m, rest⟩
    · simpa only [processBufferFuel, hfm] using h
    · simp only [processBufferFuel, hfm]
      by_cases hs0 : pyStrip m = []
      · rw [if_pos hs0]
        exact ih _ (loopInv_setBuffer rest h)
      · rw [if_neg hs0]
        by_cases hdup : pyStrip m ∈ st.hashes
        · rw [if_pos hdup]
          exact ih _ (loopInv_setBuffer rest h)
        · rw [if_neg hdup]
          by_cases hmk : (pyStrip m).head? = some '[' ∧ (pyStrip m).getLast? = some ']'
          · rw [if_pos hmk]
            rcases hps : pauseSearch (pyStrip m) with _ | ⟨b2, ds, a2⟩
            · exact ih _ (loopInv_step _ rest [] hdup (Or.inl rfl) h)
            · exact ih _ (loopInv_step _ rest _ hdup
                (Or.inr (Or.inl ⟨digitsToNat ds, rfl⟩)) h)
          · rw [if_neg hmk]
            rcases hrr : runRetry (o (pyStrip m)) with _ | bytes
            · exact ih _ (loopInv_step _ rest [] hdup (Or.inl rfl) h)
            · rcases bytes with _ | ⟨b0, bs⟩
              · exact ih _ (loopInv_step _ rest [] hdup (Or.inl rfl) h)
              · exact ih _ (loopInv_step _ rest _ hdup
                  (Or.inr (Or.inr ⟨sid, b0 :: bs, hrr, rfl⟩)) h)

/-- The loop invariant holds after any sequence of chunks. -/
theorem foldl_feedChunk_inv (o : Oracle) (sid : List Char) :
    ∀ (cs : List (List Char)) (st : PipeState), LoopInv o st →
      LoopInv o (cs.foldl (feedChunk o sid) st)
  | [], _, h => h
  | c :: cs, st, h => by
    rw [List.foldl_cons]
    exact foldl_feedChunk_inv o sid cs _
      (processBufferFuel_inv o sid _ _ (loopInv_setBuffer _ h))

theorem runChunks_inv (o : Oracle) (sid : List Char) (cs : List (List Char)) :
    LoopInv o (runChunks o sid cs) :=
  foldl_feedChunk_inv o sid cs initState (loopInv_init o)

/-! ### The shape of the full event stream -/

/-- The wire events of a run: `session_start`, then the in-loop events, then
the drained-remainder text event when the final buffer is non-blank, then
`done`. -/
theorem runPipelineEvents_eq (o : Oracle) (sid : List Char) (cs : List (List Char)) :
    runPipelineEvents o sid cs =
      StreamEvent.sessionStart sid ::
        (if pyStrip (runChunks o sid cs).buffer ≠ [] then
          emittedEvents (runChunks o sid cs).actions ++
            [StreamEvent.text ((runChunks o sid cs).count + 1)
               (pyStrip (runChunks o sid cs).buffer),
             StreamEvent.done ((runChunks o sid cs).count + 2)]
        else
          emittedEvents (runChunks o sid cs).actions ++
            [StreamEvent.done ((runChunks o sid cs).count + 1)]) := by
  simp only [runPipelineEvents, runPipeline]
  by_cases hr : pyStrip (runChunks o sid cs).buffer ≠ []
  · rw [if_pos hr, if_pos hr]
    simp [emittedEvents_append, emittedEvents]
  · rw [if_neg hr, if_neg hr]
    simp [emittedEvents_append, emittedEvents]

theorem foldr_max_le {l : List Nat} {n : Nat} (h : ∀ x ∈ l, x ≤ n) :
    l.foldr max 0 ≤ n := by
  induction l with
  | nil => exact Nat.zero_le n
  | cons x xs ih =>
    rw [List.foldr_cons]
    exact max_le (h x (List.mem_cons_self x xs))
      (ih (fun y hy => h y (List.mem_cons_of_mem x hy)))

theorem le_foldr_max {l : List Nat} {x : Nat} (h : x ∈ l) :
    x ≤ l.foldr max 0 := by
  induction l with
  | nil => simp at h
  | cons y ys ih =>
    rw [List.foldr_cons]
    rcases List.mem_cons.mp h with rfl | hmem
    · exact le_max_left _ _
    · exact le_trans (ih hmem) (le_max_right _ _)

/-- The sequence numbers of the in-loop events are `1..count`, so their
maximum is exactly `count`. -/
theorem lastSeq_actions {o : Oracle} {st : PipeState} (h : LoopInv o st) :
    ((emittedEvents st.actions).filterMap eventSeq?).foldr max 0 = st.count := by
  have hbound : ∀ x ∈ (emittedEvents st.actions).filterMap eventSeq?,
      1 ≤ x ∧ x ≤ st.count := by
    intro x hx
    rcases List.mem_filterMap.mp hx with ⟨e, he, hseq⟩
    have hact := mem_emittedEvents.mp he
    rcases h.no_other e hact with ⟨n, c, rfl⟩ | ⟨n, d, rfl⟩ | ⟨n, u, c, rfl⟩
    · obtain ⟨i, hi, rfl⟩ := (h.text_iff n c).mp hact
      have : i < st.hashes.length := (List.get?_eq_some.mp hi).1
      have hx2 : x = i + 1 := by
        simpa [eventSeq?] using hseq.symm
      rw [hx2, h.count_eq]
      omega
    · have := h.pause_seq n d hact
      have hx2 : x = n := by simpa [eventSeq?] using hseq.symm
      omega
    · have := h.audio_seq n u c hact
      have hx2 : x = n := by simpa [eventSeq?] using hseq.symm
      omega
  rcases Nat.eq_zero_or_pos st.count with hc | hc
  · rw [hc]
    have : (emittedEvents st.actions).filterMap eventSeq? = [] := by
      rcases hemp : (emittedEvents st.actions).filterMap eventSeq? with _ | ⟨x, xs⟩
      · rfl
      · have hx := hbound x (by rw [hemp]; exact List.mem_cons_self x xs)
        omega
    rw [this]
    rfl
  · refine le_antisymm (foldr_max_le (fun x hx => (hbound x hx).2)) ?_
    have hget : ∃ c, st.hashes.get? (st.count - 1) = some c := by
      have hlt : st.count - 1 < st.hashes.length := by
        rw [← h.count_eq]; omega
      rcases hg : st.hashes.get? (st.count - 1) with _ | c
      · rw [List.get?_eq_none] at hg
        omega
      · exact ⟨c, rfl⟩
    obtain ⟨c, hc2⟩ := hget
    have htext : Action.emit (StreamEvent.text st.count c) ∈ st.actions :=
      (h.text_iff st.count c).mpr ⟨st.count - 1, hc2, by omega⟩
    refine le_foldr_max (List.mem_filterMap.mpr ?_)
    exact ⟨StreamEvent.text st.count c, mem_emittedEvents.mpr htext, rfl⟩

theorem foldr_max_absorb {l : List Nat} {k : Nat} (h : ∀ x ∈ l, x ≤ k) :
    l.foldr max k = k := by
  induction l with
  | nil => rfl
  | cons x xs ih =>
    rw [List.foldr_cons, ih (fun y hy => h y (List.mem_cons_of_mem x hy))]
    exact max_eq_right (h x (List.mem_cons_self x xs))

/-- Any event of the stream is the session start, an in-loop event, the
drained-remainder text event, or the final done event. -/
theorem mem_runPipelineEvents_cases {o : Oracle} {sid : List Char}
    {cs : List (List Char)} {e : StreamEvent}
    (h : e ∈ runPipelineEvents o sid cs) :
    e = StreamEvent.sessionStart sid ∨
    Action.emit e ∈ (runChunks o sid cs).actions ∨
    (pyStrip (runChunks o sid cs).buffer ≠ [] ∧
      e = StreamEvent.text ((runChunks o sid cs).count + 1)
            (pyStrip (runChunks o sid cs).buffer)) ∨
    e = StreamEvent.done ((runChunks o sid cs).count + 1) ∨
    e = StreamEvent.done ((runChunks o sid cs).count + 2) := by
  rw [runPipelineEvents_eq] at h
  rcases List.mem_cons.mp h with heq | hmem
  · exact Or.inl heq
  · by_cases hr : pyStrip (runChunks o sid cs).buffer ≠ []
    · rw [if_pos hr] at hmem
      rcases List.mem_append.mp hmem with h1 | h2
      · exact Or.inr (Or.inl (mem_emittedEvents.mp h1))
      · rcases List.mem_cons.mp h2 with h3 | h4
        · exact Or.inr (Or.inr (Or.inl ⟨hr, h3⟩))
        · rcases List.mem_cons.mp h4 with h5 | h6
          · exact Or.inr (Or.inr (Or.inr (Or.inr h5)))
          · simp at h6
    · rw [if_neg hr] at hmem
      rcases List.mem_append.mp hmem with h1 | h2
      · exact Or.inr (Or.inl (mem_emittedEvents.mp h1))
      · rcases List.mem_cons.mp h2 with h3 | h4
        · exact Or.inr (Or.inr (Or.inr (Or.inl h3)))
        · simp at h4

/-- Every in-loop event appears in the stream. -/
theorem actions_mem_runPipelineEvents {o : Oracle} {sid : List Char}
    {cs : List (List Char)} {e : StreamEvent}
    (h : Action.emit e ∈ (runChunks o sid cs).actions) :
    e ∈ runPipelineEvents o sid cs := by
  rw [runPipelineEvents_eq]
  refine List.mem_cons_of_mem _ ?_
  by_cases hr : pyStrip (runChunks o sid cs).buffer ≠ []
  · rw [if_pos hr]
    exact List.mem_append.mpr (Or.inl (mem_emittedEvents.mpr h))
  · rw [if_neg hr]
    exact List.mem_append.mpr (Or.inl (mem_emittedEvents.mpr h))

/-- A `pause` event of the stream always comes from the in-loop processing. -/
theorem pause_mem_actions {o : Oracle} {sid : List Char} {cs : List (List Char)}
    {n d : Nat} (hp : StreamEvent.pause n d ∈ runPipelineEvents o sid cs) :
    Action.emit (StreamEvent.pause n d) ∈ (runChunks o sid cs).actions := by
  rcases mem_runPipelineEvents_cases hp with h1 | h1 | ⟨_, h1⟩ | h1 | h1
  · exact absurd h1 (by simp)
  · exact h1
  · exact absurd h1 (by simp)
  · exact absurd h1 (by simp)
  · exact absurd h1 (by simp)

/-- An `audio_ref` event of the stream always comes from the in-loop
processing. -/
theorem audioRef_mem_actions {o : Oracle} {sid : List Char}
    {cs : List (List Char)} {n : Nat} {u c : List Char}
    (hp : StreamEvent.audioRef n u c ∈ runPipelineEvents o sid cs) :
    Action.emit (StreamEvent.audioRef n u c) ∈ (runChunks o sid cs).actions := by
  rcases mem_runPipelineEvents_cases hp with h1 | h1 | ⟨_, h1⟩ | h1 | h1
  · exact absurd h1 (by simp)
  · exact h1
  · exact absurd h1 (by simp)
  · exact absurd h1 (by simp)
  · exact absurd h1 (by simp)

/-- A `text` event with an in-range sequence number comes from the in-loop
processing (the drained-remainder text event carries `count + 1`). -/
theorem text_mem_actions {o : Oracle} {sid : List Char} {cs : List (List Char)}
    {n : Nat} {c : List Char}
    (ht : StreamEvent.text n c ∈ runPipelineEvents o sid cs)
    (hn : n ≤ (runChunks o sid cs).count) :
    Action.emit (StreamEvent.text n c) ∈ (runChunks o sid cs).actions := by
  rcases mem_runPipelineEvents_cases ht with h1 | h1 | ⟨_, h1⟩ | h1 | h1
  · exact absurd h1 (by simp)
  · exact h1
  · obtain ⟨hn2, _⟩ := StreamEvent.text.inj h1
    omega
  · exact absurd h1 (by simp)
  · exact absurd h1 (by simp)

/-! ### Retry exhaustion and oracle independence -/

theorem attemptResult_eq_none {a : AttemptOutcome} (h : attemptFails a) :
    attemptResult a = none := by
  rcases h with hr | hd
  · simp [attemptResult, hr]
  · simp [attemptResult, hd]

theorem attemptFails_of_result_none {a : AttemptOutcome}
    (h : attemptResult a = none) : attemptFails a := by
  by_cases hr : a.raises
  · exact Or.inl hr
  · by_cases hd : attemptData a = []
    · exact Or.inr hd
    · rw [attemptResult, if_neg hr, if_neg hd] at h
      simp at h

theorem retryLoop_eq_none {att : Nat → AttemptOutcome}
    (h : ∀ k, attemptResult (att k) = none) :
    ∀ (fuel i : Nat), retryLoop att fuel i = none
  | 0, _ => rfl
  | Nat.succ fuel, i => by
    rw [retryLoop, h i]
    exact retryLoop_eq_none h fuel (i + 1)

/-- Exhausting every attempt makes the retry loop reraise (no bytes). -/
theorem runRetry_eq_none {att : Nat → AttemptOutcome}
    (h : ∀ k, attemptFails (att k)) : runRetry att = none :=
  retryLoop_eq_none (fun k => attemptResult_eq_none (h k)) 5 0

/-- A successful first attempt short-circuits the retry loop. -/
theorem runRetry_first_some {att : Nat → AttemptOutcome} {b : List Nat}
    (h : attemptResult (att 0) = some b) : runRetry att = some b := by
  rw [runRetry, retryLoop, h]

/-- Failures on attempts 1–3 followed by a successful attempt 4 make the
retry loop return exactly attempt 4's bytes. -/
theorem runRetry_fourth_some {att : Nat → AttemptOutcome} {b : List Nat}
    (h0 : attemptResult (att 0) = none) (h1 : attemptResult (att 1) = none)
    (h2 : attemptResult (att 2) = none) (h3 : attemptResult (att 3) = some b) :
    runRetry att = some b := by
  rw [runRetry, retryLoop, h0, retryLoop, h1, retryLoop, h2, retryLoop, h3]

/-- The buffer, fingerprint set, sequence counter and all synthesis-independent
actions evolve identically under any two synthesis oracles: synthesis results
only add cache stores and `audio_ref` events. -/
theorem processBufferFuel_core (o o2 : Oracle) (sid : List Char) :
    ∀ (fuel : Nat) (a1 a2 : List Action) (b : List Char) (hs : List (List Char))
      (c : Nat), coreActions a1 = coreActions a2 →
      (processBufferFuel o sid fuel ⟨b, hs, c, a1⟩).buffer =
        (processBufferFuel o2 sid fuel ⟨b, hs, c, a2⟩).buffer ∧
      (processBufferFuel o sid fuel ⟨b, hs, c, a1⟩).hashes =
        (processBufferFuel o2 sid fuel ⟨b, hs, c, a2⟩).hashes ∧
      (processBufferFuel o sid fuel ⟨b, hs, c, a1⟩).count =
        (processBufferFuel o2 sid fuel ⟨b, hs, c, a2⟩).count ∧
      coreActions (processBufferFuel o sid fuel ⟨b, hs, c, a1⟩).actions =
        coreActions (processBufferFuel o2 sid fuel ⟨b, hs, c, a2⟩).actions := by
  intro fuel
  induction fuel with
  | zero => exact fun a1 a2 b hs c ha => ⟨rfl, rfl, rfl, ha⟩
  | succ fuel ih =>
    intro a1 a2 b hs c ha
    rcases hfm : findMatch b with _ | ⟨m, rest⟩
    · simp only [processBufferFuel, hfm]
      refine ⟨?_, ?_, ?_, ?_⟩
      · trivial
      · trivial
      · trivial
      · exact ha
    · simp only [processBufferFuel, hfm]
      by_cases hs0 : pyStrip m = []
      · rw [if_pos hs0, if_pos hs0]
        exact ih a1 a2 rest hs c ha
      · rw [if_neg hs0, if_neg hs0]
        by_cases hdup : pyStrip m ∈ hs
        · rw [if_pos hdup, if_pos hdup]
          exact ih a1 a2 rest hs c ha
        · rw [if_neg hdup, if_neg hdup]
          by_cases hmk : (pyStrip m).head? = some '[' ∧ (pyStrip m).getLast? = some ']'
          · rw [if_pos hmk, if_pos hmk]
            apply ih
            rw [coreActions_append, coreActions_append, ha]
          · rw [if_neg hmk, if_neg hmk]
            apply ih
            rw [coreActions_append, coreActions_append, ha]
            have hsyn : ∀ (oo : Oracle),
                coreActions (Action.emit (StreamEvent.text (c + 1) (pyStrip m)) ::
                  synthActions sid (c + 1) (pyStrip m) (runRetry (oo (pyStrip m)))) =
                [Action.emit (StreamEvent.text (c + 1) (pyStrip m))] := by
              intro oo
              rcases runRetry (oo (pyStrip m)) with _ | bytes
              · simp [synthActions, coreActions, isCore]
              · rcases bytes with _ | ⟨b0, bs⟩
                · simp [synthActions, coreActions, isCore]
                · simp [synthActions, coreActions, isCore]
            rw [hsyn o, hsyn o2]

theorem foldl_feedChunk_core (o o2 : Oracle) (sid : List Char) :
    ∀ (cs : List (List Char)) (st st2 : PipeState),
      st.buffer = st2.buffer → st.hashes = st2.hashes → st.count = st2.count →
      coreActions st.actions = coreActions st2.actions →
      (cs.foldl (feedChunk o sid) st).buffer =
        (cs.foldl (feedChunk o2 sid) st2).buffer ∧
      (cs.foldl (feedChunk o sid) st).hashes =
        (cs.foldl (feedChunk o2 sid) st2).hashes ∧
      (cs.foldl (feedChunk o sid) st).count =
        (cs.foldl (feedChunk o2 sid) st2).count ∧
      coreActions (cs.foldl (feedChunk o sid) st).actions =
        coreActions (cs.foldl (feedChunk o2 sid) st2).actions
  | [], st, st2, hb, hh, hc, ha => ⟨hb, hh, hc, ha⟩
  | ch :: cs, st, st2, hb, hh, hc, ha => by
    rw [List.foldl_cons, List.foldl_cons]
    obtain ⟨b1, hs1, c1, a1⟩ := st
    obtain ⟨b2, hs2, c2, a2⟩ := st2
    simp only at hb hh hc ha
    subst hb; subst hh; subst hc
    have hone := processBufferFuel_core o o2 sid ((b1 ++ ch).length + 1)
      a1 a2 (b1 ++ ch) hs1 c1 ha
    exact foldl_feedChunk_core o o2 sid cs _ _ hone.1 hone.2.1 hone.2.2.1 hone.2.2.2

theorem coreActions_cons_of_core {a : Action} {l : List Action}
    (h : isCore a = true) : coreActions (a :: l) = a :: coreActions l := by
  simp [coreActions, List.filter_cons, h]

theorem coreActions_cons_start (sid : List Char) (l : List Action) :
    coreActions (Action.emit (StreamEvent.sessionStart sid) :: l) =
      Action.emit (StreamEvent.sessionStart sid) :: coreActions l :=
  coreActions_cons_of_core rfl

/-- Oracle independence for the whole pipeline run, including draining. -/
theorem runPipeline_core (o o2 : Oracle) (sid : List Char)
    (cs : List (List Char)) :
    coreActions (runPipeline o sid cs) = coreActions (runPipeline o2 sid cs) := by
  obtain ⟨hb, hh, hc, ha⟩ :=
    foldl_feedChunk_core o o2 sid cs initState initState rfl rfl rfl rfl
  simp only [runPipeline, runChunks]
  rw [hb, hc]
  by_cases hr : pyStrip ((cs.foldl (feedChunk o2 sid) initState).buffer) ≠ []
  · rw [if_pos hr, if_pos hr]
    simp only [coreActions_cons_start, coreActions_append, ha]
  · rw [if_neg hr, if_neg hr]
    simp only [coreActions_cons_start, coreActions_append, ha]
    rw [hc]

/-! ### Step equations for symbolic runs -/

theorem processBuffer_zero (o : Oracle) (sid : List Char) (st : PipeState) :
    processBufferFuel o sid 0 st = st := rfl

theorem processBuffer_none (o : Oracle) (sid : List Char) (fuel : Nat)
    (st : PipeState) (hfm : findMatch st.buffer = none) :
    processBufferFuel o sid (fuel + 1) st = st := by
  simp only [processBufferFuel, hfm]

/-- One iteration of the loop on a fresh, non-blank sentence, over explicit
state components. -/
theorem processBuffer_step (o : Oracle) (sid : List Char) (fuel : Nat)
    (b : List Char) (hs : List (List Char)) (c : Nat) (a : List Action)
    (m rest : List Char) (hfm : findMatch b = some (m, rest))
    (hs0 : ¬pyStrip m = []) (hdup : pyStrip m ∉ hs) :
    processBufferFuel o sid (fuel + 1) ⟨b, hs, c, a⟩ =
      processBufferFuel o sid fuel
        ⟨rest, hs ++ [pyStrip m], c + 1,
         a ++ Action.emit (StreamEvent.text (c + 1) (pyStrip m)) ::
           (if (pyStrip m).head? = some '[' ∧ (pyStrip m).getLast? = some ']' then
             pauseActions (c + 1) (pauseSearch (pyStrip m))
           else
             synthActions sid (c + 1) (pyStrip m) (runRetry (o (pyStrip m))))⟩ := by
  simp only [processBufferFuel, hfm]
  rw [if_neg hs0, if_neg hdup]

theorem synthActions_some {bytes : List Nat} (sid : List Char) (n : Nat)
    (sentence : List Char) (hbne : bytes ≠ []) :
    synthActions sid n sentence (some bytes) =
      [Action.storeChunk sid n bytes,
       Action.emit (StreamEvent.audioRef n (refUrl sid n) sentence)] := by
  simp [synthActions, hbne]

/-! ### Helper lemmas for the segmentation character classes -/

theorem isPipeTerm_false_of_content {c : Char} (h : isContentChar c = true) :
    isPipeTerm c = false := by
  rw [isContentChar] at h
  rcases hb : isPipeTerm c
  · rfl
  · rw [hb] at h
    simp at h

theorem takeWhile_append_fail {p : Char → Bool} :
    ∀ (l1 : List Char) (t : Char) (l2 : List Char),
      (∀ c ∈ l1, p c = true) → p t = false →
      (l1 ++ t :: l2).takeWhile p = l1
  | [], t, l2, _, hft => by simp [List.takeWhile_cons, hft]
  | c :: l1, t, l2, hall, hft => by
    rw [List.cons_append, List.takeWhile_cons,
      hall c (List.mem_cons_self c l1)]
    rw [takeWhile_append_fail l1 t l2 (fun x hx => hall x (List.mem_cons_of_mem c hx)) hft]
    simp

/-- The first regex alternative matches a whole content-sentence followed by a
CJK terminator. -/
theorem matchTextAlt_complete (cs : List Char) (t : Char) (hne : cs ≠ [])
    (hcontent : ∀ c ∈ cs, isContentChar c = true) (ht : isPipeTerm t = true) :
    matchTextAlt (cs ++ [t]) = some (cs ++ [t], []) := by
  have hdropfail : isContentChar t = false := by
    rw [isContentChar, ht]
    rfl
  have hrun : (cs ++ [t]).takeWhile isContentChar = cs :=
    takeWhile_append_fail cs t [] hcontent hdropfail
  rw [matchTextAlt]
  simp only [hrun]
  rw [if_neg (by simpa using hne)]
  rw [List.drop_left]
  simp [ht]

/-- A string whose characters are all neither CJK terminators nor `[` matches
neither regex alternative anywhere. -/
theorem findMatch_none_of (s : List Char)
    (h : ∀ c ∈ s, isPipeTerm c = false ∧ c ≠ '[') : findMatch s = none := by
  induction s with
  | nil => rfl
  | cons c t ih =>
    rw [findMatch]
    have hta : matchTextAlt (c :: t) = none := by
      rw [matchTextAlt]
      rcases hre : (c :: t).takeWhile isContentChar with _ | ⟨r0, rrun⟩
      · simp
      · rw [if_neg (by simp)]
        rcases hdr : (c :: t).drop (r0 :: rrun).length with _ | ⟨d0, drest⟩
        · simp
        · have hd0 : d0 ∈ c :: t := by
            have hsub := List.drop_subset ((r0 :: rrun).length) (c :: t)
            exact hsub (by rw [hdr]; exact List.mem_cons_self d0 drest)
          simp [(h d0 hd0).1]
    have hpa : matchPauseAlt (c :: t) = none := by
      have hcne : c ≠ '[' := (h c (List.mem_cons_self c t)).2
      unfold matchPauseAlt
      split
      · next t2 heq =>
          obtain ⟨hc2, _⟩ := List.cons.inj heq
          exact absurd hc2 hcne
      · rfl
    rw [hta, hpa]
    exact ih (fun x hx => h x (List.mem_cons_of_mem c hx))

/-! ### Helper lemmas for exact streaming segmentation (C7) -/

theorem matchPauseAlt_none {c : Char} (t : List Char) (hcne : c ≠ '[') :
    matchPauseAlt (c :: t) = none := by
  unfold matchPauseAlt
  split
  · next t2 heq =>
      obtain ⟨hc2, _⟩ := List.cons.inj heq
      exact absurd hc2 hcne
  · rfl

theorem pauseSearch_none_of (s : List Char) (h : ∀ c ∈ s, c ≠ '[') :
    pauseSearch s = none := by
  induction s with
  | nil => rfl
  | cons c t ih =>
    rw [pauseSearch, matchPauseAlt_none t (h c (List.mem_cons_self c t)),
      ih (fun x hx => h x (List.mem_cons_of_mem c hx))]

theorem dropWhile_eq_self_of {p : Char → Bool} (s : List Char)
    (h : ∀ c ∈ s, p c = false) : s.dropWhile p = s := by
  rcases s with _ | ⟨c, t⟩
  · rfl
  · rw [List.dropWhile_cons, h c (List.mem_cons_self c t)]
    simp

theorem pyStrip_eq_self (s : List Char)
    (h : ∀ c ∈ s, c.isWhitespace = false) : pyStrip s = s := by
  rw [pyStrip, dropWhile_eq_self_of s h,
    dropWhile_eq_self_of s.reverse (fun c hc => h c (List.mem_reverse.mp hc)),
    List.reverse_reverse]

namespace ScriptParser

/-- One well-formed sentence body plus its terminator. -/
theorem wfChunk_ne_nil (p : List Char × Char) : p.1 ++ [p.2] ≠ [] := by
  simp

/-- A flattened list of well-formed sentences starts with a non-ending
character (or is empty), so a run of ending characters ends right before it. -/
theorem takeWhile_ending_flatten (ps : List (List Char × Char))
    (hps : ∀ p ∈ ps, p.1 ≠ [] ∧ ∀ c ∈ p.1, plainChar c) :
    ((ps.map (fun p => p.1 ++ [p.2])).flatten).takeWhile isSentenceEnding = [] := by
  rcases ps with _ | ⟨q, qs⟩
  · rfl
  · obtain ⟨hne, hplain⟩ := hps q (List.mem_cons_self q qs)
    rcases hq : q.1 with _ | ⟨c, cs⟩
    · exact absurd hq hne
    · have hc : isSentenceEnding c = false :=
        (hplain c (by rw [hq]; exact List.mem_cons_self c cs)).1
      simp only [List.map_cons, List.flatten_cons, hq, List.cons_append,
        List.takeWhile_cons, hc]
      simp

theorem trailingNoEnding_append (y : List Char) (t : Char) (r : List Char)
    (ht : isSentenceEnding t = true)
    (hr : ∀ c ∈ r, isSentenceEnding c = false) :
    trailingNoEnding ((y ++ [t]) ++ r) = r := by
  rw [trailingNoEnding]
  rw [show ((y ++ [t]) ++ r).reverse = r.reverse ++ t :: y.reverse from by simp]
  rw [takeWhile_append_fail r.reverse t y.reverse
    (fun c hc => by rw [hr c (List.mem_reverse.mp hc)]; rfl)
    (by rw [ht]; rfl)]
  exact List.reverse_reverse r

theorem take_sub_length (x r : List Char) :
    (x ++ r).take ((x ++ r).length - r.length) = x := by
  rw [List.length_append, Nat.add_sub_cancel]
  exact List.take_left x r

theorem dropWhile_append_fail {p : Char → Bool} :
    ∀ (l1 : List Char) (t : Char) (l2 : List Char),
      (∀ c ∈ l1, p c = true) → p t = false →
      (l1 ++ t :: l2).dropWhile p = t :: l2
  | [], t, l2, _, hft => by simp [List.dropWhile_cons, hft]
  | c :: l1, t, l2, hall, hft => by
    rw [List.cons_append, List.dropWhile_cons, hall c (List.mem_cons_self c l1)]
    simp only [if_true]
    exact dropWhile_append_fail l1 t l2
      (fun x hx => hall x (List.mem_cons_of_mem c hx)) hft

/-- Like `takeWhile_ending_flatten`: a run of endings cannot eat into the
next well-formed sentence. -/
theorem dropWhile_ending_flatten (ps : List (List Char × Char))
    (hps : ∀ p ∈ ps, p.1 ≠ [] ∧ ∀ c ∈ p.1, plainChar c) :
    ((ps.map (fun p => p.1 ++ [p.2])).flatten).dropWhile isSentenceEnding =
      (ps.map (fun p => p.1 ++ [p.2])).flatten := by
  rcases ps with _ | ⟨q, qs⟩
  · rfl
  · obtain ⟨hne, hplain⟩ := hps q (List.mem_cons_self q qs)
    rcases hq : q.1 with _ | ⟨c, cs⟩
    · exact absurd hq hne
    · have hc : isSentenceEnding c = false :=
        (hplain c (by rw [hq]; exact List.mem_cons_self c cs)).1
      simp only [List.map_cons, List.flatten_cons, hq, List.cons_append,
        List.dropWhile_cons, hc]
      simp

/-- The step equation of `splitEndingsFuel` when an ending is present. -/
theorem splitEndingsFuel_cons_eq (fuel : Nat) (s z : List Char)
    (hdw : s.dropWhile (fun c => !isSentenceEnding c) = z) (hne : z ≠ []) :
    splitEndingsFuel (fuel + 1) s =
      s.takeWhile (fun c => !isSentenceEnding c) ::
        z.takeWhile isSentenceEnding ::
        splitEndingsFuel fuel (z.dropWhile isSentenceEnding) := by
  rcases z with _ | ⟨z0, zs⟩
  · exact absurd rfl hne
  · simp only [splitEndingsFuel, hdw]

/-- `re.split(SENTENCE_ENDINGS, ·)` on a buffer of well-formed sentences
yields the alternating body/terminator parts with a trailing empty part. -/
theorem splitEndingsFuel_wf :
    ∀ (ps : List (List Char × Char)) (fuel : Nat),
      ((ps.map (fun p => p.1 ++ [p.2])).flatten).length < fuel →
      (∀ p ∈ ps, (p.1 ≠ [] ∧ ∀ c ∈ p.1, plainChar c) ∧
        isSentenceEnding p.2 = true) →
      splitEndingsFuel fuel ((ps.map (fun p => p.1 ++ [p.2])).flatten) =
        ps.flatMap (fun p => [p.1, [p.2]]) ++ [[]]
  | [], fuel, hfuel, _ => by
    rcases fuel with _ | fuel
    · omega
    · rfl
  | p :: ps, fuel, hfuel, hps => by
    rcases fuel with _ | fuel
    · omega
    · obtain ⟨⟨hne, hplain⟩, hend⟩ := hps p (List.mem_cons_self p ps)
      have hwf : ∀ q ∈ ps, q.1 ≠ [] ∧ ∀ c ∈ q.1, plainChar c :=
        fun q hq => (hps q (List.mem_cons_of_mem p hq)).1
      have hB : ((p :: ps).map (fun p => p.1 ++ [p.2])).flatten =
          p.1 ++ (p.2 :: (ps.map (fun p => p.1 ++ [p.2])).flatten) := by
        simp
      have hdw : (p.1 ++ (p.2 :: (ps.map (fun p => p.1 ++ [p.2])).flatten)).dropWhile
          (fun c => !isSentenceEnding c) =
          p.2 :: (ps.map (fun p => p.1 ++ [p.2])).flatten :=
        dropWhile_append_fail p.1 p.2 _
          (fun c hc => by rw [(hplain c hc).1]; rfl) (by rw [hend]; rfl)
      have htake : (p.1 ++ (p.2 :: (ps.map (fun p => p.1 ++ [p.2])).flatten)).takeWhile
          (fun c => !isSentenceEnding c) = p.1 :=
        takeWhile_append_fail p.1 p.2 _
          (fun c hc => by rw [(hplain c hc).1]; rfl) (by rw [hend]; rfl)
      have hrun : (p.2 :: (ps.map (fun p => p.1 ++ [p.2])).flatten).takeWhile
          isSentenceEnding = [p.2] := by
        rw [List.takeWhile_cons, hend]
        simp only [if_true]
        rw [takeWhile_ending_flatten ps hwf]
      have hdrop2 : (p.2 :: (ps.map (fun p => p.1 ++ [p.2])).flatten).dropWhile
          isSentenceEnding = (ps.map (fun p => p.1 ++ [p.2])).flatten := by
        rw [List.dropWhile_cons, hend]
        simp only [if_true]
        exact dropWhile_ending_flatten ps hwf
      have hlen : ((ps.map (fun p => p.1 ++ [p.2])).flatten).length < fuel := by
        have h1 := hfuel
        rw [hB] at h1
        simp only [List.length_append, List.length_cons] at h1
        omega
      have hrec := splitEndingsFuel_wf ps fuel hlen
        (fun q hq => hps q (List.mem_cons_of_mem p hq))
      rw [hB, splitEndingsFuel_cons_eq fuel _ _ hdw (by simp), htake, hrun,
        hdrop2, hrec]
      simp

theorem sentencesLoop_skip {p : List Char} (rest : List (List Char))
    (current : List Char) (h : startsWithEnding p = false) :
    sentencesLoop (p :: rest) current = sentencesLoop rest p := by
  rw [sentencesLoop, h]
  simp

theorem sentencesLoop_flush {p : List Char} (rest : List (List Char))
    (current : List Char) (h : startsWithEnding p = true)
    (hstrip : pyStrip (current ++ p) = current ++ p) (hne : current ++ p ≠ []) :
    sentencesLoop (p :: rest) current =
      (current ++ p) :: sentencesLoop rest [] := by
  rw [sentencesLoop, h]
  simp only [if_true]
  rw [hstrip, if_pos hne]
  rfl

/-- The `_split_sentences` accumulator loop reassembles well-formed
body/terminator parts into the original sentences. -/
theorem sentencesLoop_wf :
    ∀ (ps : List (List Char × Char)),
      (∀ p ∈ ps, (p.1 ≠ [] ∧ ∀ c ∈ p.1, plainChar c) ∧
        isSentenceEnding p.2 = true ∧ (p.2).isWhitespace = false) →
      sentencesLoop (ps.flatMap (fun p => [p.1, [p.2]]) ++ [[]]) [] =
        ps.map (fun p => p.1 ++ [p.2])
  | [], _ => rfl
  | p :: ps, hps => by
    obtain ⟨⟨hne, hplain⟩, hend, hws⟩ := hps p (List.mem_cons_self p ps)
    have hflat : (p :: ps).flatMap (fun p => [p.1, [p.2]]) ++ [[]] =
        p.1 :: [p.2] :: (ps.flatMap (fun p => [p.1, [p.2]]) ++ [[]]) := by
      simp
    have hsw1 : startsWithEnding p.1 = false := by
      rcases hq : p.1 with _ | ⟨c, cs⟩
      · rfl
      · show isSentenceEnding c = false
        exact (hplain c (by rw [hq]; exact List.mem_cons_self c cs)).1
    have hsw2 : startsWithEnding [p.2] = true := hend
    have hstrip : pyStrip (p.1 ++ [p.2]) = p.1 ++ [p.2] := by
      apply pyStrip_eq_self
      intro c hc
      rcases List.mem_append.mp hc with h1 | h1
      · exact (hplain c h1).2.1
      · rw [List.mem_singleton.mp h1]
        exact hws
    rw [hflat, sentencesLoop_skip _ _ hsw1, sentencesLoop_flush _ _ hsw2
      hstrip (by simp), sentencesLoop_wf ps
        (fun q hq => hps q (List.mem_cons_of_mem p hq))]
    simp

/-- Blank-filtering of already-stripped, non-blank sentences is the identity
modulo wrapping each in a text segment. -/
theorem filterMap_text_of_wf :
    ∀ (L : List (List Char)), (∀ s ∈ L, pyStrip s = s ∧ s ≠ []) →
      L.filterMap (fun s =>
        if pyStrip s ≠ [] then
          some ({ kind := SegKind.text, content := pyStrip s, duration := 0 } :
            ScriptSegment)
        else none) =
      L.map (fun s =>
        { kind := SegKind.text, content := s, duration := 0 })
  | [], _ => rfl
  | s :: L, h => by
    obtain ⟨hstrip, hne⟩ := h s (List.mem_cons_self s L)
    have hf : (if pyStrip s ≠ [] then
        some ({ kind := SegKind.text, content := pyStrip s, duration := 0 } :
          ScriptSegment)
      else none) =
        some { kind := SegKind.text, content := s, duration := 0 } := by
      rw [hstrip, if_pos hne]
    rw [List.filterMap_cons, hf, List.map_cons,
      filterMap_text_of_wf L (fun x hx => h x (List.mem_cons_of_mem s hx))]

theorem takeWhile_all {p : Char → Bool} :
    ∀ (s : List Char), (∀ c ∈ s, p c = true) → s.takeWhile p = s
  | [], _ => rfl
  | c :: t, h => by
    rw [List.takeWhile_cons, h c (List.mem_cons_self c t)]
    simp only [if_true]
    rw [takeWhile_all t (fun x hx => h x (List.mem_cons_of_mem c hx))]

theorem trailingNoEnding_all_plain (r : List Char)
    (hr : ∀ c ∈ r, isSentenceEnding c = false) : trailingNoEnding r = r := by
  rw [trailingNoEnding, takeWhile_all r.reverse
    (fun c hc => by rw [hr c (List.mem_reverse.mp hc)]; rfl),
    List.reverse_reverse]

/-- Every character of a well-formed buffer is kept away from `[`. -/
theorem mem_flatten_chunk {c : Char} {ps : List (List Char × Char)}
    (hc : c ∈ (ps.map (fun p => p.1 ++ [p.2])).flatten) :
    ∃ p ∈ ps, c ∈ p.1 ∨ c = p.2 := by
  rw [List.mem_flatten] at hc
  obtain ⟨l, hl, hcl⟩ := hc
  rw [List.mem_map] at hl
  obtain ⟨p, hp, rfl⟩ := hl
  rcases List.mem_append.mp hcl with h1 | h1
  · exact ⟨p, hp, Or.inl h1⟩
  · exact ⟨p, hp, Or.inr (List.mem_singleton.mp h1)⟩

theorem ending_ne_bracket {c : Char} (h : isSentenceEnding c = true) :
    c ≠ '[' := by
  intro heq
  rw [heq] at h
  exact absurd h (by decide)

end ScriptParser

/-! ### Helper lemmas for the audio cache -/

namespace SessionAudio

theorem get_chunk_none_of_absent (m : SessionAudioManager) (sid : List Char)
    (q : Nat) (h : ∀ p ∈ m.cache, p.1 ≠ sid) :
    get_chunk m sid q = none := by
  rw [get_chunk, lookupSession]
  rcases hf : m.cache.find? (fun p => p.1 == sid) with _ | p
  · rw [hf]
    rfl
  · have hpeq : p.1 = sid := by simpa using List.find?_some hf
    exact absurd hpeq (h p (List.mem_of_find?_eq_some hf))

/-- `get_chunk` returns `none` for every key `(sid, q)` that is not stored:
whether the whole session is missing from the cache or the session is present
without that sequence number, both branches of the lookup yield `None`. -/
theorem get_chunk_none_of_not_stored (m : SessionAudioManager)
    (sid : List Char) (q : Nat)
    (h : ∀ p ∈ m.cache, p.1 = sid → ∀ e ∈ p.2, e.1 ≠ q) :
    get_chunk m sid q = none := by
  rw [get_chunk, lookupSession]
  rcases hf : m.cache.find? (fun p => p.1 == sid) with _ | p
  · rw [hf]
    rfl
  · rw [hf]
    show ((p.2.find? (fun e => e.1 == q)).map (fun e => e.2.1)) = none
    rcases hfe : p.2.find? (fun e => e.1 == q) with _ | e
    · rw [hfe]
      rfl
    · have hpeq : p.1 = sid := by simpa using List.find?_some hf
      have heq : e.1 = q := by simpa using List.find?_some hfe
      exact absurd heq
        (h p (List.mem_of_find?_eq_some hf) hpeq e (List.mem_of_find?_eq_some hfe))

theorem insertInner_head (inner : List (Nat × (List Nat × Int))) (seq : Nat)
    (v : List Nat × Int) :
    ∃ e rest, insertInner inner seq v = e :: rest ∧
      (e.2.2 = v.2 ∨ ∃ x ∈ inner, e.2.2 = x.2.2) := by
  rw [insertInner]
  by_cases hany : inner.any (fun e => e.1 == seq)
  · rw [if_pos hany]
    rcases inner with _ | ⟨e0, rest0⟩
    · simp [List.any_nil] at hany
    · rw [List.map_cons]
      by_cases he0 : e0.1 == seq
      · rw [if_pos he0]
        exact ⟨(seq, v), _, rfl, Or.inl rfl⟩
      · rw [if_neg he0]
        exact ⟨e0, _, rfl, Or.inr ⟨e0, List.mem_cons_self e0 rest0, rfl⟩⟩
  · rw [if_neg hany]
    rcases inner with _ | ⟨e0, rest0⟩
    · exact ⟨(seq, v), [], rfl, Or.inl rfl⟩
    · exact ⟨e0, _, rfl, Or.inr ⟨e0, List.mem_cons_self e0 rest0, rfl⟩⟩

theorem mem_allTimestamps {m : SessionAudioManager}
    {p : List Char × List (Nat × (List Nat × Int))}
    {x : Nat × (List Nat × Int)} (hp : p ∈ m.cache) (hx : x ∈ p.2) :
    x.2.2 ∈ allTimestamps m := by
  rw [allTimestamps, List.mem_flatten]
  exact ⟨p.2.map (fun e => e.2.2), List.mem_map.mpr ⟨p, hp, rfl⟩,
    List.mem_map.mpr ⟨x, hx, rfl⟩⟩

/-- After a store, the freshly written session is present and its
first-inserted chunk's timestamp is the store time or an older one. -/
theorem storeRaw_head_ts (m : SessionAudioManager) (sid : List Char) (seq : Nat)
    (data : List Nat) (t : Int) :
    ∀ p ∈ (storeRaw m sid seq data t).cache, p.1 = sid →
      ∃ e rest, p.2 = e :: rest ∧
        (e.2.2 = t ∨ e.2.2 ∈ allTimestamps m) := by
  intro p hp hsid
  rw [storeRaw] at hp
  simp only [List.mem_map] at hp
  obtain ⟨p0, hp0, hfp⟩ := hp
  by_cases hkey : p0.1 == sid
  · rw [if_pos hkey] at hfp
    obtain ⟨e, rest, hins, hts⟩ := insertInner_head p0.2 seq (data, t)
    refine ⟨e, rest, ?_, ?_⟩
    · rw [← hfp]
      exact hins
    · rcases hts with h1 | ⟨x, hx, h1⟩
      · exact Or.inl h1
      · have hp0cases : p0 ∈ m.cache ∨ p0 = (sid, []) := by
          by_cases hm : m.cache.any (fun p => p.1 == sid)
          · rw [if_pos hm] at hp0
            exact Or.inl hp0
          · rw [if_neg hm] at hp0
            rcases List.mem_append.mp hp0 with h2 | h2
            · exact Or.inl h2
            · exact Or.inr (by simpa using h2)
        rcases hp0cases with hmem | hnew
        · exact Or.inr (h1 ▸ mem_allTimestamps hmem hx)
        · rw [hnew] at hx
          simp at hx
  · rw [if_neg hkey] at hfp
    rw [← hfp] at hsid
    exact absurd hsid (by simpa using hkey)

/-- The same property survives `store_chunk`, including its opportunistic
cleanup (whose filter only removes entries). -/
theorem store_chunk_head_ts (m : SessionAudioManager) (sid : List Char)
    (seq : Nat) (data : List Nat) (t : Int) :
    ∀ p ∈ (store_chunk m sid seq data t).cache, p.1 = sid →
      ∃ e rest, p.2 = e :: rest ∧
        (e.2.2 = t ∨ e.2.2 ∈ allTimestamps m) := by
  intro p hp hsid
  rw [store_chunk] at hp
  by_cases hcln : t - m.lastCleanup > 3600
  · rw [if_pos hcln] at hp
    rw [cleanup] at hp
    exact storeRaw_head_ts m sid seq data t p (List.mem_filter.mp hp).1 hsid
  · rw [if_neg hcln] at hp
    exact storeRaw_head_ts m sid seq data t p hp hsid

end SessionAudio

/-! ## Claim theorems -/

/-- C1 (counterexample): for the generation source yielding `"今天很累。[5s]放松一下。"`
as the chunks `"今天很累。["` then `"5s]放松一下。"`, the claimed event sequence
`text(1), audio_ref(1), pause(2,5), text(3,"放松一下。"), audio_ref(3), done(4)` does
not occur: the stream contains no pause event at all and no `text` event with
content `"放松一下。"`, because the first regex alternative
`[^。！？\n]+[。！？]` matches `"[5s]放松一下。"` as a single sentence, absorbing the
pause directive. -/
theorem c1_counterexample :
    StreamEvent.pause 2 5 ∉
      runPipelineEvents alwaysOk "s".data ["今天很累。[".data, "5s]放松一下。".data] ∧
    StreamEvent.text 3 "放松一下。".data ∉
      runPipelineEvents alwaysOk "s".data ["今天很累。[".data, "5s]放松一下。".data] ∧
    StreamEvent.done 4 ∉
      runPipelineEvents alwaysOk "s".data ["今天很累。[".data, "5s]放松一下。".data] := by
  refine ⟨?_, ?_, ?_⟩ <;> decide

/-- C1 (amended): for that chunking, with synthesis succeeding on the first
attempt, the pipeline emits `session_start`, `text(1,"今天很累。")`,
`audio_ref(1)`, `text(2,"[5s]放松一下。")`, `audio_ref(2)`, `done(3)`: the pause
directive is absorbed into the following text segment because the sentence
alternative of the regex matches across it up to the next CJK terminator. -/
theorem c1_amended :
    runPipelineEvents alwaysOk "s".data ["今天很累。[".data, "5s]放松一下。".data] =
      [StreamEvent.sessionStart "s".data,
       StreamEvent.text 1 "今天很累。".data,
       StreamEvent.audioRef 1 (refUrl "s".data 1) "今天很累。".data,
       StreamEvent.text 2 "[5s]放松一下。".data,
       StreamEvent.audioRef 2 (refUrl "s".data 2) "[5s]放松一下。".data,
       StreamEvent.done 3] := by
  decide

/-- C2 (counterexample): the end-of-stream remainder does not go through the
synthesis path.  With a generation source yielding just `"hi"` (no terminator)
and an oracle whose synthesis always succeeds, the drained remainder produces a
`text` event but no `audio_ref` event. -/
theorem c2_counterexample :
    runPipelineEvents alwaysOk "s".data ["hi".data] =
      [StreamEvent.sessionStart "s".data, StreamEvent.text 1 "hi".data,
       StreamEvent.done 2] ∧
    eventAudioTexts (runPipelineEvents alwaysOk "s".data ["hi".data]) = [] := by
  refine ⟨?_, ?_⟩ <;> decide

/-- C3 (counterexample): the pipeline can emit two `text` events with
identical content in one stream.  On the single chunk `" 。。"` the in-loop
segmentation matches `" 。"` (stripped to `"。"`, emitted with seq 1), leaves
`"。"` in the buffer — which matches nothing because the sentence alternative
requires a non-terminator character before the terminator — and the
end-of-stream drain then re-emits `"。"` with seq 2 without any dedup check. -/
theorem c3_counterexample :
    (eventTexts (runPipelineEvents alwaysOk "s".data [" 。。".data])).count "。".data
      = 2 := by
  decide

/-- C5 (counterexample): `parse_streaming` emits a zero-duration pause.  On
input `"[0s]"` it returns exactly one segment, a Pause with duration `0`
(`_merge_and_clean`, which would drop it, runs only in batch `parse`). -/
theorem c5_counterexample :
    ScriptParser.parse_streaming "[0s]".data [] =
      ([{ kind := ScriptParser.SegKind.pause, content := [], duration := 0 }], []) ∧
    ({ kind := ScriptParser.SegKind.pause, content := [], duration := 0 } :
        ScriptParser.ScriptSegment) ∈ (ScriptParser.parse_streaming "[0s]".data []).1 := by
  refine ⟨?_, ?_⟩ <;> decide

/-- C6 (counterexample): the streaming pipeline does not recognize Latin
sentence marks.  Feeding the chunk `"Hi."` produces no segment at all — the
buffer retains `"Hi."` untouched — while the CJK-terminated `"Hi。"` is emitted
as a complete text segment. -/
theorem c6_counterexample :
    runChunks alwaysOk "s".data ["Hi.".data] =
      { buffer := "Hi.".data, hashes := [], count := 0, actions := [] } ∧
    textContents (runChunks alwaysOk "s".data ["Hi。".data]).actions =
      ["Hi。".data] := by
  refine ⟨?_, ?_⟩ <;> decide

/-- C6 (amended): the inline segmentation of the streaming pipeline recognizes
only the CJK marks 。！？ as sentence terminators; the Latin marks `.` `!` `?`
and the newline are not terminators there (a sentence ending in one of them
stays in the buffer), while the `ScriptParser.SENTENCE_ENDINGS` class — used
by `parse`/`parse_streaming`, not by the pipeline — accepts all of them. -/
theorem c6_amended (cs : List Char) (hne : cs ≠ [])
    (hcontent : ∀ c ∈ cs, isContentChar c = true ∧ c ≠ '[') :
    (∀ t, isPipeTerm t = true → findMatch (cs ++ [t]) = some (cs ++ [t], [])) ∧
    (∀ t, t ∈ ['.', '!', '?', '\n'] → findMatch (cs ++ [t]) = none) ∧
    (isPipeTerm '。' = true ∧ isPipeTerm '！' = true ∧ isPipeTerm '？' = true) ∧
    (isPipeTerm '.' = false ∧ isPipeTerm '!' = false ∧ isPipeTerm '?' = false ∧
      isPipeTerm '\n' = false) ∧
    (ScriptParser.isSentenceEnding '.' = true ∧
      ScriptParser.isSentenceEnding '!' = true ∧
      ScriptParser.isSentenceEnding '?' = true ∧
      ScriptParser.isSentenceEnding '\n' = true ∧
      ScriptParser.isSentenceEnding '。' = true) := by
  refine ⟨?_, ?_, by decide, by decide, by decide⟩
  · intro t ht
    obtain ⟨c0, cs0, rfl⟩ : ∃ c0 cs0, cs = c0 :: cs0 := by
      rcases cs with _ | ⟨c0, cs0⟩
      · exact absurd rfl hne
      · exact ⟨c0, cs0, rfl⟩
    have hm := matchTextAlt_complete (c0 :: cs0) t hne
      (fun c hc => (hcontent c hc).1) ht
    rw [List.cons_append] at hm
    rw [List.cons_append, findMatch, hm]
  · intro t ht
    apply findMatch_none_of
    intro c hc
    rcases List.mem_append.mp hc with hin | hlast
    · exact ⟨isPipeTerm_false_of_content (hcontent c hin).1, (hcontent c hin).2⟩
    · have hct : c = t := by simpa using hlast
      rcases (by simpa using ht : t = '.' ∨ t = '!' ∨ t = '?' ∨ t = '\n') with
        rfl | rfl | rfl | rfl <;> rw [hct] <;> exact ⟨rfl, by decide⟩

/-- C6 (witness): the amended theorem applied to the content word `"Hi"`: a
CJK terminator completes a segment, the Latin period does not. -/
theorem c6_amended_witness :
    findMatch ("Hi".data ++ ['。']) = some ("Hi".data ++ ['。'], []) ∧
    findMatch ("Hi".data ++ ['.']) = none := by
  have h := c6_amended "Hi".data (by decide) (by decide)
  exact ⟨h.1 '。' (by decide), h.2.1 '.' (by decide)⟩

/-- C5 (amended): the batch parser never emits a pause segment of
non-positive duration (`_merge_and_clean` drops them), and pause durations in
streaming parsing are always non-negative (the directive regex captures only
digits, so a negative duration can never be parsed) — but a zero-duration
pause does pass through `parse_streaming` (see the counterexample). -/
theorem c5_amended :
    (∀ script seg, seg ∈ ScriptParser.parse script →
      seg.kind = ScriptParser.SegKind.pause → 0 < seg.duration) ∧
    (∀ chunk buffer seg, seg ∈ (ScriptParser.parse_streaming chunk buffer).1 →
      seg.kind = ScriptParser.SegKind.pause → 0 ≤ seg.duration) := by
  constructor
  · intro script seg hmem hk
    rw [ScriptParser.parse, ScriptParser.merge_and_clean] at hmem
    obtain ⟨hseg, hpred⟩ := List.mem_filter.mp hmem
    rw [hk] at hpred
    simp only [Bool.and_eq_true, Bool.not_eq_true'] at hpred
    have hd := hpred.2
    simp only [beq_self_eq_true, Bool.true_and, decide_eq_false_iff_not] at hd
    omega
  · intro chunk buffer seg hmem hk
    rcases hps : pauseSearch (buffer ++ chunk) with _ | ⟨bf, ds, af⟩
    · simp only [ScriptParser.parse_streaming, hps] at hmem
      by_cases hcomp : (buffer ++ chunk).take ((buffer ++ chunk).length -
          (ScriptParser.trailingNoEnding (buffer ++ chunk)).length) ≠ []
      · rw [if_pos hcomp] at hmem
        simp only [List.mem_filterMap] at hmem
        obtain ⟨s, _, hsome⟩ := hmem
        by_cases hsne : pyStrip s ≠ []
        · rw [if_pos hsne] at hsome
          obtain rfl := Option.some.inj hsome
          simp at hk
        · rw [if_neg hsne] at hsome
          exact Option.noConfusion hsome
      · rw [if_neg hcomp] at hmem
        simp at hmem
    · simp only [ScriptParser.parse_streaming, hps] at hmem
      rcases List.mem_append.mp hmem with hleft | hright
      · by_cases hbne : pyStrip bf ≠ []
        · rw [if_pos hbne] at hleft
          rw [List.mem_singleton.mp hleft] at hk
          simp at hk
        · rw [if_neg hbne] at hleft
          simp at hleft
      · rw [List.mem_singleton.mp hright]
        exact Int.natCast_nonneg _

/-- C5 (witness): the amended theorem applied to the script `"x[2s]y。"`
(whose batch parse contains the pause segment of duration 2). -/
theorem c5_amended_witness :
    ({ kind := ScriptParser.SegKind.pause, content := [], duration := 2 } :
        ScriptParser.ScriptSegment) ∈ ScriptParser.parse "x[2s]y。".data ∧
    (0 : Int) < 2 := by
  refine ⟨by decide, ?_⟩
  exact c5_amended.1 "x[2s]y。".data
    { kind := ScriptParser.SegKind.pause, content := [], duration := 2 }
    (by decide) rfl

/-- C7 (counterexample): segment contents are stripped, so their concatenation
can lose whitespace of the original buffer.  For the buffer `"Hi. Yo."`,
`parse_streaming` yields the segments `"Hi."` and `"Yo."` with empty
remainder, and `"Hi." ++ "Yo." ++ ""` differs from the original buffer. -/
theorem c7_counterexample :
    ScriptParser.parse_streaming "Hi. Yo.".data [] =
      ([{ kind := ScriptParser.SegKind.text, content := "Hi.".data, duration := 0 },
        { kind := ScriptParser.SegKind.text, content := "Yo.".data, duration := 0 }],
       []) ∧
    "Hi.".data ++ "Yo.".data ++ ([] : List Char) ≠ "Hi. Yo.".data := by
  refine ⟨?_, ?_⟩ <;> decide

/-- C7 (amended): the count/round-trip property holds for buffers whose
sentences and remainder contain no whitespace, no pause-directive bracket and
no interior terminators, each sentence being closed by one non-whitespace
terminator: `parse_streaming` then yields exactly one Text segment per
terminator and the concatenation of the segment contents plus the remainder
reproduces the buffer.  (With whitespace present the contents are stripped and
the concatenation property fails — see the counterexample.) -/
theorem c7_amended (ps : List (List Char × Char)) (r : List Char)
    (hps : ∀ p ∈ ps, p.1 ≠ [] ∧ (∀ c ∈ p.1, ScriptParser.plainChar c) ∧
      ScriptParser.isSentenceEnding p.2 = true ∧ (p.2).isWhitespace = false)
    (hr : ∀ c ∈ r, ScriptParser.plainChar c) :
    ScriptParser.parse_streaming
        ((ps.map (fun p => p.1 ++ [p.2])).flatten ++ r) [] =
      (ps.map (fun p =>
        ({ kind := ScriptParser.SegKind.text, content := p.1 ++ [p.2],
           duration := 0 } : ScriptParser.ScriptSegment)), r) ∧
    (ScriptParser.parse_streaming
        ((ps.map (fun p => p.1 ++ [p.2])).flatten ++ r) []).1.length
      = ps.length ∧
    ((ScriptParser.parse_streaming
        ((ps.map (fun p => p.1 ++ [p.2])).flatten ++ r) []).1.map
          (fun seg => seg.content)).flatten ++
      (ScriptParser.parse_streaming
        ((ps.map (fun p => p.1 ++ [p.2])).flatten ++ r) []).2 =
      (ps.map (fun p => p.1 ++ [p.2])).flatten ++ r := by
  have hrend : ∀ c ∈ r, ScriptParser.isSentenceEnding c = false :=
    fun c hc => (hr c hc).1
  have hpn : pauseSearch ((ps.map (fun p => p.1 ++ [p.2])).flatten ++ r)
      = none := by
    apply pauseSearch_none_of
    intro c hc
    rcases List.mem_append.mp hc with h1 | h1
    · obtain ⟨p, hp, hcp⟩ := ScriptParser.mem_flatten_chunk h1
      rcases hcp with h2 | h2
      · exact ((hps p hp).2.1 c h2).2.2
      · rw [h2]
        exact ScriptParser.ending_ne_bracket (hps p hp).2.2.1
    · exact (hr c h1).2.2
  have hmain : ScriptParser.parse_streaming
      ((ps.map (fun p => p.1 ++ [p.2])).flatten ++ r) [] =
      (ps.map (fun p =>
        ({ kind := ScriptParser.SegKind.text, content := p.1 ++ [p.2],
           duration := 0 } : ScriptParser.ScriptSegment)), r) := by
    rcases List.eq_nil_or_concat ps with hnil | ⟨qs, q, hcat⟩
    · subst hnil
      simp only [List.map_nil, List.flatten_nil, List.nil_append] at hpn ⊢
      have htr : ScriptParser.trailingNoEnding r = r :=
        ScriptParser.trailingNoEnding_all_plain r hrend
      simp only [ScriptParser.parse_streaming, List.nil_append, hpn, htr,
        Nat.sub_self, List.take_zero]
      rw [if_neg (by simp)]
    · have hshape : (ps.map (fun p => p.1 ++ [p.2])).flatten =
          (((qs.map (fun p => p.1 ++ [p.2])).flatten) ++ q.1) ++ [q.2] := by
        rw [hcat]
        simp
      have hqmem : q ∈ ps := by
        rw [hcat]
        simp
      have htr : ScriptParser.trailingNoEnding
          ((ps.map (fun p => p.1 ++ [p.2])).flatten ++ r) = r := by
        rw [hshape]
        exact ScriptParser.trailingNoEnding_append _ q.2 r
          (hps q hqmem).2.2.1 hrend
      have hcomp : ((ps.map (fun p => p.1 ++ [p.2])).flatten ++ r).take
          (((ps.map (fun p => p.1 ++ [p.2])).flatten ++ r).length - r.length)
          = (ps.map (fun p => p.1 ++ [p.2])).flatten :=
        ScriptParser.take_sub_length _ r
      have hBne : (ps.map (fun p => p.1 ++ [p.2])).flatten ≠ [] := by
        rw [hshape]
        simp
      have hsplit : ScriptParser.split_sentences
          ((ps.map (fun p => p.1 ++ [p.2])).flatten) =
          ps.map (fun p => p.1 ++ [p.2]) := by
        rw [ScriptParser.split_sentences, ScriptParser.splitEndings,
          ScriptParser.splitEndingsFuel_wf ps _ (Nat.lt_succ_self _)
            (fun p hp => ⟨⟨(hps p hp).1, (hps p hp).2.1⟩, (hps p hp).2.2.1⟩),
          ScriptParser.sentencesLoop_wf ps
            (fun p hp => ⟨⟨(hps p hp).1, (hps p hp).2.1⟩, (hps p hp).2.2.1,
              (hps p hp).2.2.2⟩)]
      have hfil := ScriptParser.filterMap_text_of_wf
        (ps.map (fun p => p.1 ++ [p.2]))
        (by
          intro s hs
          rw [List.mem_map] at hs
          obtain ⟨p, hp, rfl⟩ := hs
          refine ⟨pyStrip_eq_self _ ?_, by simp⟩
          intro c hc
          rcases List.mem_append.mp hc with h1 | h1
          · exact ((hps p hp).2.1 c h1).2.1
          · rw [List.mem_singleton.mp h1]
            exact (hps p hp).2.2.2)
      simp only [ScriptParser.parse_streaming, List.nil_append, hpn, htr,
        hcomp]
      rw [if_pos hBne, hsplit, hfil]
      rw [List.map_map]
      rfl
  refine ⟨hmain, ?_, ?_⟩
  · rw [hmain]
    simp
  · rw [hmain]
    simp only [List.map_map]
    rfl

/-- C7 (witness): the amended theorem applied to the buffer `"你好。x"`,
one complete CJK sentence plus the incomplete remainder `"x"`. -/
theorem c7_amended_witness :
    ScriptParser.parse_streaming "你好。x".data [] =
      ([({ kind := ScriptParser.SegKind.text, content := "你好。".data,
           duration := 0 } : ScriptParser.ScriptSegment)], "x".data) := by
  have h := (c7_amended [("你好".data, '。')] "x".data
    (by
      intro p hp
      rw [List.mem_singleton.mp hp]
      exact ⟨by decide, by decide, by decide, by decide⟩)
    (by decide)).1
  have hbuf : (([("你好".data, '。')].map
      (fun p => p.1 ++ [p.2])).flatten ++ "x".data) = "你好。x".data := by
    decide
  rw [hbuf] at h
  rw [h]
  rfl

/-- C2 (amended): on end of the generation source, a non-blank buffer
remainder is emitted directly as one final `text` event — bypassing both the
dedup check and the synthesis path, so it never gets an `audio_ref` — and the
final `done` event carries the last assigned sequence number plus one. -/
theorem c2_amended (o : Oracle) (sid : List Char) (cs : List (List Char)) :
    (runPipelineEvents o sid cs).getLast? =
      some (StreamEvent.done (lastSeq (runPipelineEvents o sid cs) + 1)) ∧
    (∀ r, r = pyStrip (runChunks o sid cs).buffer → r ≠ [] →
      StreamEvent.text (lastSeq (runPipelineEvents o sid cs)) r ∈
          runPipelineEvents o sid cs ∧
      ∀ u c, StreamEvent.audioRef (lastSeq (runPipelineEvents o sid cs)) u c ∉
          runPipelineEvents o sid cs) := by
  have hinv := runChunks_inv o sid cs
  have hdecomp := runPipelineEvents_eq o sid cs
  have hbound : ∀ x ∈ (emittedEvents (runChunks o sid cs).actions).filterMap eventSeq?,
      x ≤ (runChunks o sid cs).count := by
    intro x hx
    have := le_foldr_max hx
    rwa [lastSeq_actions hinv] at this
  by_cases hr : pyStrip (runChunks o sid cs).buffer ≠ []
  · rw [if_pos hr] at hdecomp
    have hls : lastSeq (runPipelineEvents o sid cs) = (runChunks o sid cs).count + 1 := by
      rw [hdecomp, lastSeq]
      simp only [List.filterMap_cons, eventSeq?, List.filterMap_append]
      rw [List.foldr_append]
      simp only [List.filterMap_cons, eventSeq?, List.filterMap_nil, List.foldr_cons,
        List.foldr_nil, Nat.max_zero]
      exact foldr_max_absorb (fun x hx => Nat.le_succ_of_le (hbound x hx))
    refine ⟨?_, ?_⟩
    · rw [hls, hdecomp]
      have hsh : StreamEvent.sessionStart sid ::
          (emittedEvents (runChunks o sid cs).actions ++
            [StreamEvent.text ((runChunks o sid cs).count + 1)
               (pyStrip (runChunks o sid cs).buffer),
             StreamEvent.done ((runChunks o sid cs).count + 2)]) =
          (StreamEvent.sessionStart sid ::
            (emittedEvents (runChunks o sid cs).actions ++
              [StreamEvent.text ((runChunks o sid cs).count + 1)
                 (pyStrip (runChunks o sid cs).buffer)])) ++
            [StreamEvent.done ((runChunks o sid cs).count + 2)] := by
        simp
      rw [hsh, List.getLast?_concat]
    · intro r hre hrne
      refine ⟨?_, ?_⟩
      · rw [hls, hdecomp, hre]
        exact List.mem_cons_of_mem _ (List.mem_append.mpr (Or.inr
          (List.mem_cons_self _ _)))
      · intro u c hmem
        have hact := audioRef_mem_actions hmem
        have := (hinv.audio_seq _ u c hact).2
        rw [hls] at this
        omega
  · rw [if_neg hr] at hdecomp
    have hls : lastSeq (runPipelineEvents o sid cs) = (runChunks o sid cs).count := by
      rw [hdecomp, lastSeq]
      simp only [List.filterMap_cons, eventSeq?, List.filterMap_append,
        List.filterMap_nil, List.append_nil]
      exact lastSeq_actions hinv
    refine ⟨?_, ?_⟩
    · rw [hls, hdecomp]
      have hsh : StreamEvent.sessionStart sid ::
          (emittedEvents (runChunks o sid cs).actions ++
            [StreamEvent.done ((runChunks o sid cs).count + 1)]) =
          (StreamEvent.sessionStart sid ::
            emittedEvents (runChunks o sid cs).actions) ++
            [StreamEvent.done ((runChunks o sid cs).count + 1)] := by
        simp
      rw [hsh, List.getLast?_concat]
    · intro r hre hrne
      rw [hre] at hrne
      exact absurd (not_not.mp hr) hrne

/-- C2 (witness): the amended theorem applied to the single chunk `"hi"`,
which is drained as the final remainder. -/
theorem c2_amended_witness :
    (runPipelineEvents alwaysOk "w".data ["hi".data]).getLast? =
      some (StreamEvent.done
        (lastSeq (runPipelineEvents alwaysOk "w".data ["hi".data]) + 1)) ∧
    StreamEvent.text (lastSeq (runPipelineEvents alwaysOk "w".data ["hi".data]))
      "hi".data ∈ runPipelineEvents alwaysOk "w".data ["hi".data] ∧
    StreamEvent.audioRef
      (lastSeq (runPipelineEvents alwaysOk "w".data ["hi".data]))
      "u".data "hi".data ∉ runPipelineEvents alwaysOk "w".data ["hi".data] := by
  have h := c2_amended alwaysOk "w".data ["hi".data]
  have h2 := h.2 "hi".data (by decide) (by decide)
  exact ⟨h.1, h2.1, h2.2 "u".data "hi".data⟩

/-- C3 (amended): within the in-loop processing of one stream, the dedup
fingerprint check is idempotent — the contents of the `text` events emitted by
the loop are pairwise distinct, and so are the contents of its `audio_ref`
events (so a re-matched duplicate sentence produces no second event); only the
end-of-stream drain (see the counterexample) can re-emit a duplicate. -/
theorem c3_amended (o : Oracle) (sid : List Char) (cs : List (List Char)) :
    (textContents (runChunks o sid cs).actions).Nodup ∧
    (audioTexts (runChunks o sid cs).actions).Nodup := by
  have h := runChunks_inv o sid cs
  refine ⟨?_, h.audio_nodup⟩
  rw [h.texts_eq]
  exact h.hashes_nodup

/-- C4: for a text segment whose synthesis fails on attempts 1–3 (by raising
or by yielding no bytes — the empty result is converted into a retryable
failure) and succeeds on attempt 4, the emitted `audio_ref` and the cached
chunk carry exactly attempt 4's bytes: the accumulation buffer is reset
(`audio_data = b""`) at the start of every attempt. -/
theorem c4_retry_reset (o : Oracle) (sid : List Char) (b : List Nat)
    (h0 : attemptFails (o "你好。".data 0))
    (h1 : attemptFails (o "你好。".data 1))
    (h2 : attemptFails (o "你好。".data 2))
    (h3r : (o "你好。".data 3).raises = false)
    (h3d : attemptData (o "你好。".data 3) = b)
    (hbne : b ≠ []) :
    runPipeline o sid ["你好。".data] =
      [Action.emit (StreamEvent.sessionStart sid),
       Action.emit (StreamEvent.text 1 "你好。".data),
       Action.storeChunk sid 1 b,
       Action.emit (StreamEvent.audioRef 1 (refUrl sid 1) "你好。".data),
       Action.emit (StreamEvent.done 2)] := by
  have hres3 : attemptResult (o "你好。".data 3) = some b := by
    simp only [attemptResult, h3d]
    rw [if_neg (by simp [h3r]), if_neg hbne]
  have hrr : runRetry (o "你好。".data) = some b :=
    runRetry_fourth_some (attemptResult_eq_none h0) (attemptResult_eq_none h1)
      (attemptResult_eq_none h2) hres3
  have hstrip : pyStrip "你好。".data = "你好。".data := by decide
  have hrun : runChunks o sid ["你好。".data] =
      ⟨[], ["你好。".data], 1,
       [Action.emit (StreamEvent.text 1 "你好。".data),
        Action.storeChunk sid 1 b,
        Action.emit (StreamEvent.audioRef 1 (refUrl sid 1) "你好。".data)]⟩ := by
    show processBufferFuel o sid 4 ⟨"你好。".data, [], 0, []⟩ = _
    rw [show (4 : Nat) = 3 + 1 from rfl]
    rw [processBuffer_step o sid 3 "你好。".data [] 0 [] "你好。".data []
      (by decide) (by decide) (by decide)]
    rw [hstrip]
    rw [if_neg (by decide : ¬(("你好。".data).head? = some '[' ∧
      ("你好。".data).getLast? = some ']'))]
    rw [hrr, synthActions_some sid (0 + 1) "你好。".data hbne]
    rw [show (3 : Nat) = 2 + 1 from rfl]
    have hnil : findMatch ([] : List Char) = none := by decide
    rw [processBuffer_none o sid 2 _ hnil]
    simp
  simp only [runPipeline, hrun]
  rw [if_neg (by decide : ¬(pyStrip ([] : List Char) ≠ []))]
  simp

/-- C8: a text segment whose synthesis exhausts every retry attempt fails
locally: no `audio_ref` is emitted for it, no `error` event is emitted, every
`audio_ref` in a stream is accompanied by the `text` event already emitted for
its sentence, and the text/pause/done event stream is identical to that of a
run with any other synthesis oracle — so the pipeline continues with the
subsequent segments unchanged. -/
theorem c8_local_failure (o o2 : Oracle) (sid : List Char)
    (cs : List (List Char)) (s : List Char)
    (hfail : ∀ k, attemptFails (o s k)) :
    (∀ n u, StreamEvent.audioRef n u s ∉ runPipelineEvents o sid cs) ∧
    (∀ msg, StreamEvent.error msg ∉ runPipelineEvents o sid cs) ∧
    (∀ n u c, StreamEvent.audioRef n u c ∈ runPipelineEvents o sid cs →
      StreamEvent.text n c ∈ runPipelineEvents o sid cs) ∧
    coreActions (runPipeline o sid cs) = coreActions (runPipeline o2 sid cs) := by
  have hinv := runChunks_inv o sid cs
  refine ⟨?_, ?_, ?_, runPipeline_core o o2 sid cs⟩
  · intro n u hmem
    obtain ⟨bb, hb⟩ := hinv.audio_retry n u s (audioRef_mem_actions hmem)
    rw [runRetry_eq_none hfail] at hb
    exact Option.noConfusion hb
  · intro msg hmem
    rcases mem_runPipelineEvents_cases hmem with h1 | h1 | ⟨_, h1⟩ | h1 | h1
    · exact absurd h1 (by simp)
    · rcases hinv.no_other _ h1 with ⟨n, c, he⟩ | ⟨n, d, he⟩ | ⟨n2, u2, c2, he⟩ <;>
        simp at he
    · exact absurd h1 (by simp)
    · exact absurd h1 (by simp)
    · exact absurd h1 (by simp)
  · intro n u c hmem
    exact actions_mem_runPipelineEvents
      (hinv.audio_text n u c (audioRef_mem_actions hmem))

/-- C8 (witness): the theorem applied to a stream of three sentences whose
middle sentence always fails synthesis. -/
theorem c8_local_failure_witness :
    StreamEvent.audioRef 1 (refUrl "s".data 1) "你好。".data ∉
        runPipelineEvents alwaysFail "s".data ["你好。".data] ∧
    StreamEvent.error [] ∉ runPipelineEvents alwaysFail "s".data ["你好。".data] := by
  have h := c8_local_failure alwaysFail alwaysOk "s".data ["你好。".data]
    "你好。".data (fun k => Or.inl rfl)
  exact ⟨h.1 1 (refUrl "s".data 1), h.2.1 []⟩

/-- C4 (witness): the theorem applied to the oracle that raises on the first
three attempts and then succeeds with one chunk `[7]`. -/
theorem c4_retry_reset_witness :
    runPipeline (failThrice [[7]]) "s".data ["你好。".data] =
      [Action.emit (StreamEvent.sessionStart "s".data),
       Action.emit (StreamEvent.text 1 "你好。".data),
       Action.storeChunk "s".data 1 [7],
       Action.emit (StreamEvent.audioRef 1 (refUrl "s".data 1) "你好。".data),
       Action.emit (StreamEvent.done 2)] := by
  refine c4_retry_reset (failThrice [[7]]) "s".data [7] ?_ ?_ ?_ ?_ ?_ ?_
  · exact Or.inl rfl
  · exact Or.inl rfl
  · exact Or.inl rfl
  · rfl
  · rfl
  · decide

/-- C10 (amended): the dedup fingerprint filter does apply to pause
directives, but only as segmentation units: at most one `pause` event is ever
emitted per distinct directive text.  Formally, two `pause` events whose
sequence numbers carry `text` events with the same content must be the same
event. -/
theorem c10_amended (o : Oracle) (sid : List Char) (cs : List (List Char))
    (n m d d2 : Nat) (s : List Char)
    (hp1 : StreamEvent.pause n d ∈ runPipelineEvents o sid cs)
    (hp2 : StreamEvent.pause m d2 ∈ runPipelineEvents o sid cs)
    (ht1 : StreamEvent.text n s ∈ runPipelineEvents o sid cs)
    (ht2 : StreamEvent.text m s ∈ runPipelineEvents o sid cs) :
    n = m := by
  have hinv := runChunks_inv o sid cs
  have hn := (hinv.pause_seq n d (pause_mem_actions hp1)).2
  have hm := (hinv.pause_seq m d2 (pause_mem_actions hp2)).2
  obtain ⟨i, hi, rfl⟩ := (hinv.text_iff n s).mp (text_mem_actions ht1 hn)
  obtain ⟨j, hj, rfl⟩ := (hinv.text_iff m s).mp (text_mem_actions ht2 hm)
  obtain ⟨hilt, hgi⟩ := List.get?_eq_some.mp hi
  obtain ⟨hjlt, hgj⟩ := List.get?_eq_some.mp hj
  have hgg : (runChunks o sid cs).hashes.get ⟨i, hilt⟩ =
      (runChunks o sid cs).hashes.get ⟨j, hjlt⟩ := by
    rw [hgi, hgj]
  have := (hinv.hashes_nodup.get_inj_iff).mp hgg
  have hij : i = j := Fin.mk.inj_iff.mp this
  omega

/-- C10 (witness): the amended theorem applied to the stream
`"[5s]"`, `"x。"`, whose single pause event sits at seq 1. -/
theorem c10_amended_witness :
    (1 : Nat) = 1 ∧
    StreamEvent.pause 1 5 ∈
      runPipelineEvents alwaysOk "w".data ["[5s]".data, "x。".data] ∧
    StreamEvent.text 1 "[5s]".data ∈
      runPipelineEvents alwaysOk "w".data ["[5s]".data, "x。".data] := by
  refine ⟨?_, by decide, by decide⟩
  exact c10_amended alwaysOk "w".data ["[5s]".data, "x。".data] 1 1 5 5
    "[5s]".data (by decide) (by decide) (by decide) (by decide)

/-- C9: running `cleanup` with max age `0` at any instant later than every
stored timestamp, immediately after a store, removes that session's entries
entirely, so a subsequent `get_chunk` for any sequence of that session returns
`none`; and `get_chunk` for any key `(session, seq)` that was never stored (or
evicted) — whether the whole session is absent from the cache or the session
is present without that sequence number — returns `none` (it is a total
function: the not-found indication, never an error). -/
theorem c9_cleanup_fetch (m : SessionAudio.SessionAudioManager)
    (sid : List Char) (seq : Nat) (data : List Nat) (t tn : Int)
    (hts : ∀ ts ∈ SessionAudio.allTimestamps m, ts < tn) (htn : t < tn) :
    (∀ q, SessionAudio.get_chunk
        (SessionAudio.cleanup (SessionAudio.store_chunk m sid seq data t) 0 tn)
        sid q = none) ∧
    (∀ (m2 : SessionAudio.SessionAudioManager) (sid2 : List Char) (q : Nat),
      (∀ p ∈ m2.cache, p.1 = sid2 → ∀ e ∈ p.2, e.1 ≠ q) →
        SessionAudio.get_chunk m2 sid2 q = none) := by
  constructor
  · intro q
    apply SessionAudio.get_chunk_none_of_absent
    intro p hp hpeq
    rw [SessionAudio.cleanup] at hp
    obtain ⟨hpm, hpred⟩ := List.mem_filter.mp hp
    obtain ⟨e, rest, hinner, hets⟩ :=
      SessionAudio.store_chunk_head_ts m sid seq data t p hpm hpeq
    have hlt : e.2.2 < tn := by
      rcases hets with h1 | h1
      · omega
      · exact hts _ h1
    rw [hinner] at hpred
    simp only [Bool.not_eq_true', decide_eq_false_iff_not] at hpred
    omega
  · intro m2 sid2 q h
    exact SessionAudio.get_chunk_none_of_not_stored m2 sid2 q h

/-- C9 (witness): the theorem applied to the empty cache with a store of
`("a", 1)` at time 1 and a cleanup with max age 0 at time 2; plus fetches of
two never-stored keys: sequence 2 of the present session `"a"` (before any
cleanup) and sequence 1 of the absent session `"b"`. -/
theorem c9_cleanup_fetch_witness :
    SessionAudio.get_chunk
      (SessionAudio.cleanup
        (SessionAudio.store_chunk ⟨[], 0⟩ "a".data 1 [5] 1) 0 2) "a".data 1
      = none ∧
    SessionAudio.get_chunk
      (SessionAudio.store_chunk ⟨[], 0⟩ "a".data 1 [5] 1) "a".data 2 = none ∧
    SessionAudio.get_chunk (⟨[], 0⟩ : SessionAudio.SessionAudioManager)
      "b".data 1 = none := by
  have h := c9_cleanup_fetch ⟨[], 0⟩ "a".data 1 [5] 1 2
    (by intro ts hts2; simp [SessionAudio.allTimestamps] at hts2)
    (by norm_num)
  refine ⟨h.1 1, ?_, ?_⟩
  · exact h.2 (SessionAudio.store_chunk ⟨[], 0⟩ "a".data 1 [5] 1) "a".data 2
      (by decide)
  · exact h.2 ⟨[], 0⟩ "b".data 1 (by decide)

/-- C10 (counterexample): with the stream `"x[5s]y。"` then `"[5s]"`, the pause
directive `[5s]` occurs twice in the generated text, yet the pipeline emits its
pause event for the second occurrence (the first is absorbed into the text
sentence `"x[5s]y。"`), and that later occurrence also produces a `text` event —
contradicting both "a Pause event only for the first occurrence" and "every
later identical directive produces no event at all". -/
theorem c10_counterexample :
    runPipelineEvents alwaysOk "s".data ["x[5s]y。".data, "[5s]".data] =
      [StreamEvent.sessionStart "s".data,
       StreamEvent.text 1 "x[5s]y。".data,
       StreamEvent.audioRef 1 (refUrl "s".data 1) "x[5s]y。".data,
       StreamEvent.text 2 "[5s]".data,
       StreamEvent.pause 2 5,
       StreamEvent.done 3] ∧
    StreamEvent.text 2 "[5s]".data ∈
      runPipelineEvents alwaysOk "s".data ["x[5s]y。".data, "[5s]".data] := by
  refine ⟨?_, ?_⟩ <;> decide

end Flowist
